import Mathlib

/-!
Verification of the Galois BFS and SSSP example applications
(src/lonestar/bfs/bfs.cpp and src/lonestar/analytics/cpu/sssp/SSSP.cpp).

Shallow embedding conventions:
* node data (distances) is a total map `Nat → Nat`; a write is `updFn`;
* distances are 32-bit unsigned integers, so every addition performed by
  the C++ code is taken modulo `M32 = 2 ^ 32`;
* graphs are adjacency maps; the CSR storage itself is out of scope, only
  its iteration interface is used by the algorithms;
* the driver loops are embedded with explicit fuel; returning `none` means
  the fuel ran out, `some` is normal termination;
* `do_all` / `for_each` bodies are sequentialized; for the concurrent
  `deltaStepAlgo` operator the atomic-min write is modelled as an atomic
  sequential step, and a run is an arbitrary sequence of operator
  invocations.
-/

namespace GaloisRT

/-- Modelled from the spec: `DIST_INFINITY` of the Lonestar `BFS_SSSP` header
(the header is not under src/).  It is the maximum of the 32-bit unsigned
distance type divided by two, minus one, i.e. 2147483646. -/
def DIST_INFINITY : Nat := 2147483646

/-- The modulus of 32-bit unsigned arithmetic: distances in both BFS and SSSP
are 32-bit unsigned integers (`unsigned int` resp. `uint32_t`), so additions
performed by the algorithms wrap modulo `2 ^ 32`. -/
def M32 : Nat := 4294967296

/-- Pointwise update of per-node data; models an in-place write
`graph.getData(i) = v`. -/
def updFn {α : Type} (f : Nat → α) (i : Nat) (v : α) : Nat → α :=
  fun j => if j = i then v else f j

/-! ### BFS (src/lonestar/bfs/bfs.cpp) -/

/-- A directed unweighted graph as used by bfs.cpp: `n` nodes, and for each
node the ordered list of its out-neighbours (the edge iteration order of the
CSR graph). -/
structure BGraph where
  n : Nat
  adj : Nat → List Nat

/-- Well-formedness of the graph interface: every edge destination is an
in-range node (guaranteed by the CSR construction). -/
def WFB (g : BGraph) : Prop := ∀ u v : Nat, v ∈ g.adj u → v < g.n

/-- The node data set up by `main` before running any BFS variant: every node
is initialized to `DIST_INFINITY` and then the source is set to `0` (each
algorithm re-assigns the source to `0` as well, which is idempotent here). -/
def initB (g : BGraph) (src : Nat) : Nat → Nat :=
  fun v => if v = src then 0 else DIST_INFINITY

/-- Modelled from the spec: `BFS::UpdateRequest` of the Lonestar header (not
under src/), the work item `Req(n, w)` used by `serialAlgo`. -/
structure Req where
  n : Nat
  w : Nat

/-- The edge loop of one `serialAlgo` iteration: for each destination of the
popped request, if its datum is `DIST_INFINITY` it is set to `req.w` and
`Req(dst, req.w + 1)` is appended to the worklist (the increment is 32-bit). -/
def serialProcessEdges (w : Nat) (d : Nat → Nat) :
    List Nat → (Nat → Nat) × List Req
  | [] => (d, [])
  | dst :: rest =>
    if d dst = DIST_INFINITY then
      let r := serialProcessEdges w (updFn d dst w) rest
      (r.1, ⟨dst, (w + 1) % M32⟩ :: r.2)
    else serialProcessEdges w d rest

/-- The `while (!wl.empty())` loop of `serialAlgo`: pop the front request,
process its edges, append the generated requests at the back (std::deque
FIFO).  `fuel` bounds the number of pops; `none` means the fuel ran out. -/
def serialAlgoLoop (g : BGraph) : Nat → (Nat → Nat) → List Req → Option (Nat → Nat)
  | 0, d, wl => match wl with | [] => some d | _ => none
  | fuel + 1, d, wl =>
    match wl with
    | [] => some d
    | req :: rest =>
      let r := serialProcessEdges req.w d (g.adj req.n)
      serialAlgoLoop g fuel r.1 (rest ++ r.2)

/-- `serialAlgo(graph, source)` of bfs.cpp, run from the state set up by
`main`, returning the final distances of the in-range nodes.  The fuel
`(n+1)*(n+1)` dominates the worst-case number of pops (at most one initial
request plus one push per discovery). -/
def serialAlgo (g : BGraph) (src : Nat) : Option (List Nat) :=
  (serialAlgoLoop g ((g.n + 1) * (g.n + 1)) (initB g src) [⟨src, 1⟩]).map
    (fun d => (List.range g.n).map d)

/-- Modelled from the spec: `pushEdgeTiles` of the Lonestar header (not under
src/) splits a node's edge range into tiles of at most `EDGE_TILE_SIZE = 256`
consecutive edges; an empty range produces no tile.  A tile is represented by
the list of edge destinations it covers. -/
def chunksB (l : List Nat) : List (List Nat) :=
  if l.length ≤ 256 then (if l.isEmpty then [] else [l])
  else l.take 256 :: chunksB (l.drop 256)
termination_by l.length
decreasing_by simp [List.length_drop]; omega

/-- The edge tiles of one node, as pushed by `pushEdgeTiles(bag, graph, u, etm)`. -/
def pushEdgeTiles (g : BGraph) (u : Nat) : List (List Nat) :=
  chunksB (g.adj u)

/-- One edge of a tile in `syncAlgo` / `serialSyncAlgo`: if the destination
datum is `DIST_INFINITY`, write `nextLevel` and push the destination's edge
tiles onto the `next` container. -/
def procEdgeSync (g : BGraph) (lvl : Nat) (s : (Nat → Nat) × List (List Nat))
    (dst : Nat) : (Nat → Nat) × List (List Nat) :=
  if s.1 dst = DIST_INFINITY then (updFn s.1 dst lvl, s.2 ++ pushEdgeTiles g dst)
  else s

/-- Processing one tile popped from `curr` in `syncAlgo` / `serialSyncAlgo`. -/
def procTileSync (g : BGraph) (lvl : Nat) (s : (Nat → Nat) × List (List Nat))
    (t : List Nat) : (Nat → Nat) × List (List Nat) :=
  t.foldl (procEdgeSync g lvl) s

/-- One round of `syncAlgo` / `serialSyncAlgo`: drain all tiles of `curr` in
order (the parallel `do_all` of `syncAlgo` is sequentialized), accumulating the
tiles pushed into the fresh `next` container. -/
def syncRound (g : BGraph) (lvl : Nat) (d : Nat → Nat) (curr : List (List Nat)) :
    (Nat → Nat) × List (List Nat) :=
  curr.foldl (procTileSync g lvl) (d, [])

/-- The `while (!next->empty())` loop shared by `syncAlgo` and
`serialSyncAlgo`: swap `curr` and `next`, clear `next`, increment `nextLevel`
(32-bit), process all of `curr`.  `fuel` bounds the number of rounds. -/
def serialSyncLoop (g : BGraph) : Nat → Nat → (Nat → Nat) → List (List Nat) →
    Option (Nat → Nat)
  | 0, _, d, next => match next with | [] => some d | _ => none
  | fuel + 1, lvl, d, next =>
    match next with
    | [] => some d
    | _ =>
      let lvl2 := (lvl + 1) % M32
      let r := syncRound g lvl2 d next
      serialSyncLoop g fuel lvl2 r.1 r.2

/-- `serialSyncAlgo(graph, source)` of bfs.cpp, run from the state set up by
`main`: seed `next` with the source's edge tiles, then iterate rounds.  The
fuel `n + 1` dominates the number of rounds. -/
def serialSyncAlgo (g : BGraph) (src : Nat) : Option (List Nat) :=
  (serialSyncLoop g (g.n + 1) 0 (initB g src) (pushEdgeTiles g src)).map
    (fun d => (List.range g.n).map d)

/-- `syncAlgo(graph, source)` of bfs.cpp (its `do_all` sequentialized; the
rounds are the same as `serialSyncAlgo` up to the container types).  The first
component models the `assert(!next->empty())` executed right after seeding:
`true` means the assertion holds, `false` means it fails. -/
def syncAlgo (g : BGraph) (src : Nat) : Bool × Option (List Nat) :=
  let next := pushEdgeTiles g src
  (!next.isEmpty,
   (serialSyncLoop g (g.n + 1) 0 (initB g src) next).map
     (fun d => (List.range g.n).map d))

/-- The round-stamped processing trace of the bulk-synchronous loop: the same
recursion as `serialSyncLoop`, emitting, for every processed tile, the pure
round counter `r + 1` of the round that processed it (the 32-bit `nextLevel`
state is threaded separately, exactly as in `serialSyncLoop`). -/
def syncTrace (g : BGraph) : Nat → Nat → Nat → (Nat → Nat) → List (List Nat) →
    List (Nat × List Nat)
  | 0, _, _, _, _ => []
  | fuel + 1, r, lvl, d, next =>
    match next with
    | [] => []
    | _ =>
      let lvl2 := (lvl + 1) % M32
      let X := syncRound g lvl2 d next
      next.map (fun t => (r + 1, t)) ++ syncTrace g fuel (r + 1) lvl2 X.1 X.2

/-! ### Reference BFS rounds and path lengths (specification side) -/

/-- Specification-side frontier expansion of the destinations `outs` at level
`lvl`: write `lvl` into every destination still at `DIST_INFINITY` and collect
the newly discovered nodes in order. -/
def expandEdges (lvl : Nat) (d : Nat → Nat) : List Nat → (Nat → Nat) × List Nat
  | [] => (d, [])
  | dst :: rest =>
    if d dst = DIST_INFINITY then
      let r := expandEdges lvl (updFn d dst lvl) rest
      (r.1, dst :: r.2)
    else expandEdges lvl d rest

/-- Specification-side expansion of one frontier node. -/
def expandNode (g : BGraph) (lvl : Nat) (s : (Nat → Nat) × List Nat) (u : Nat) :
    (Nat → Nat) × List Nat :=
  let e := expandEdges lvl s.1 (g.adj u)
  (e.1, s.2 ++ e.2)

/-- Specification-side expansion of a whole frontier. -/
def expandFrontier (g : BGraph) (lvl : Nat) (s : (Nat → Nat) × List Nat)
    (front : List Nat) : (Nat → Nat) × List Nat :=
  front.foldl (expandNode g lvl) s

/-- Specification-side round iteration: starting from distances `d` and the
frontier `front` of nodes at level `lvl`, run `fuel` rounds (stopping early on
an empty frontier) and return the final distances and frontier. -/
def roundsState (g : BGraph) : Nat → Nat → (Nat → Nat) → List Nat →
    (Nat → Nat) × List Nat
  | 0, _, d, front => (d, front)
  | fuel + 1, lvl, d, front =>
    match front with
    | [] => (d, [])
    | _ =>
      let X := expandFrontier g (lvl + 1) (d, []) front
      roundsState g fuel (lvl + 1) X.1 X.2

/-- Count of the in-range nodes up to `m` whose datum is `DIST_INFINITY`. -/
def countInfAux (d : Nat → Nat) : Nat → Nat
  | 0 => 0
  | m + 1 => countInfAux d m + (if d m = DIST_INFINITY then 1 else 0)

/-- `PathN g src v k` holds when there is a directed path of length `k` from
`src` to `v` in `g`. -/
inductive PathN (g : BGraph) (src : Nat) : Nat → Nat → Prop where
  | refl : PathN g src src 0
  | step {u v k : Nat} : PathN g src u k → v ∈ g.adj u → PathN g src v (k + 1)

/-- `v` is reachable from `src` in `g`. -/
def ReachableB (g : BGraph) (src v : Nat) : Prop := ∃ k, PathN g src v k

/-- `L` is the BFS level of `v`: the least length of a path from `src` to `v`. -/
def MinLvl (g : BGraph) (src v L : Nat) : Prop :=
  PathN g src v L ∧ ∀ k, PathN g src v k → L ≤ k

/-! ### SSSP (src/lonestar/analytics/cpu/sssp/SSSP.cpp) -/

/-- A directed weighted graph as used by SSSP.cpp: `n` nodes and for each node
the ordered list of pairs (edge destination, edge weight). -/
structure WGraph where
  n : Nat
  adj : Nat → List (Nat × Nat)

/-- Well-formedness of the weighted graph interface: in-range destinations and
weights representable in 32 bits. -/
def WFW (g : WGraph) : Prop :=
  ∀ u : Nat, ∀ p ∈ g.adj u, p.1 < g.n ∧ p.2 < M32

/-- All edge weights are at most `2 ^ 31`: then `item.dist + w` never wraps
modulo `2 ^ 32` for any distance actually stored by the algorithms. -/
def SmallWeights (g : WGraph) : Prop :=
  ∀ u : Nat, ∀ p ∈ g.adj u, p.2 ≤ 2147483648

/-- The node data set up by `trial` before running any SSSP variant: every
node at `DIST_INFINITY`, the source at `0`. -/
def initW (g : WGraph) (src : Nat) : Nat → Nat :=
  fun v => if v = src then 0 else DIST_INFINITY

/-- Modelled from the spec: `SSSP::UpdateRequest` of the Lonestar header (not
under src/): a work item carrying a node and the tentative distance it was
pushed with; `ReqPushWrap` pushes `UpdateRequest(dst, newDist)`. -/
structure UpdateRequest where
  src : Nat
  dist : Nat

/-- The edge loop shared verbatim by `dijkstraAlgo` and `serDeltaAlgo`:
`newDist = item.dist + w` (32-bit), and if `newDist < ddata` the destination
datum is overwritten and `UpdateRequest(dst, newDist)` is pushed. -/
def relaxEdges (w0 : Nat) (d : Nat → Nat) :
    List (Nat × Nat) → (Nat → Nat) × List UpdateRequest
  | [] => (d, [])
  | (dst, ew) :: rest =>
    let newDist := (w0 + ew) % M32
    if newDist < d dst then
      let r := relaxEdges w0 (updFn d dst newDist) rest
      (r.1, ⟨dst, newDist⟩ :: r.2)
    else relaxEdges w0 d rest

/-- Processing of one popped item by `dijkstraAlgo` and `serDeltaAlgo` after
their identical stale-item guard has passed. -/
def relaxItem (g : WGraph) (d : Nat → Nat) (item : UpdateRequest) :
    (Nat → Nat) × List UpdateRequest :=
  relaxEdges item.dist d (g.adj item.src)

/-- Modelled from the spec: `galois::MinHeap` pop (not under src/); it removes
a least element in the `UpdateRequest` order (by distance, ties by node id),
keeping the remaining items. -/
def urLess (a b : UpdateRequest) : Bool :=
  a.dist < b.dist || (a.dist == b.dist && a.src < b.src)

/-- Remove a minimal element from the heap contents. -/
def popMin : List UpdateRequest → Option (UpdateRequest × List UpdateRequest)
  | [] => none
  | x :: xs =>
    match popMin xs with
    | none => some (x, [])
    | some (m, rest) => if urLess m x then some (m, x :: rest) else some (x, xs)

/-- The `while (!wl.empty())` loop of `dijkstraAlgo`: pop a minimal item, skip
it if its node datum has already improved past `item.dist`, otherwise relax
its edges. -/
def dijkstraLoop (g : WGraph) : Nat → (Nat → Nat) → List UpdateRequest →
    Option (Nat → Nat)
  | 0, d, wl => match wl with | [] => some d | _ => none
  | fuel + 1, d, wl =>
    match popMin wl with
    | none => some d
    | some (item, rest) =>
      if d item.src < item.dist then dijkstraLoop g fuel d rest
      else
        let r := relaxItem g d item
        dijkstraLoop g fuel r.1 (rest ++ r.2)

/-- `dijkstraAlgo(graph, source, ReqPushWrap(), OutEdgeRangeFn)` of SSSP.cpp,
run from the state set up by `trial`, returning the final in-range distances. -/
def dijkstraAlgo (g : WGraph) (src : Nat) : Option (List Nat) :=
  (dijkstraLoop g ((g.n + 1) * (g.n + 1)) (initW g src) [⟨src, 0⟩]).map
    (fun d => (List.range g.n).map d)

/-- Modelled from the spec: the `SerialBucketWL` used by `serDeltaAlgo` (not
under src/).  A map from integer priority to a FIFO bucket, the number of
allocated buckets, and the monotone cursor `m_minBucket` of the lowest bucket
not yet passed. -/
structure SerialBucketWL where
  buckets : Nat → List UpdateRequest
  maxB : Nat
  cursor : Nat

/-- The empty bucket worklist. -/
def emptyBWL : SerialBucketWL := ⟨fun _ => [], 0, 0⟩

/-- `push` of `SerialBucketWL` with the `UpdateRequestIndexer`: the priority is
`req.dist >> shift`, and the request is appended at the back of that bucket. -/
def bwlPush (shift : Nat) (wl : SerialBucketWL) (r : UpdateRequest) :
    SerialBucketWL :=
  let b := r.dist >>> shift
  ⟨updFn wl.buckets b (wl.buckets b ++ [r]), max wl.maxB (b + 1), wl.cursor⟩

/-- Emptiness of all allocated buckets at priorities at least `k`; with
`k = cursor` this is `empty()`, with `k = 0` it is `allEmpty()`. -/
def bwlEmptyFrom (wl : SerialBucketWL) (k : Nat) : Bool :=
  (List.range wl.maxB).all (fun i => decide (i < k) || (wl.buckets i).isEmpty)

/-- The scan of `goToNextBucket`: advance from `k` over empty buckets, at most
`s` steps (with `s = maxB - cursor` this is the bound `m_buckets.size()`). -/
def scanUp (wl : SerialBucketWL) : Nat → Nat → Nat
  | k, 0 => k
  | k, s + 1 => if (wl.buckets k).isEmpty then scanUp wl (k + 1) s else k

/-- `goToNextBucket()` of `SerialBucketWL`. -/
def goToNextBucket (wl : SerialBucketWL) : SerialBucketWL :=
  ⟨wl.buckets, wl.maxB, scanUp wl wl.cursor (wl.maxB - wl.cursor)⟩

/-- The nested loops of `serDeltaAlgo`, flattened: while the worklist is not
`empty()`, drain the bucket at the cursor front to back (applying the
stale-item guard and the relaxation of each item, routing pushes through the
indexer), and advance the cursor over empty buckets.  On normal exit the
second component records `allEmpty()`; `false` means the guarded
`std::abort()` after the loop would run. -/
def serDeltaLoop (g : WGraph) (shift : Nat) : Nat → (Nat → Nat) →
    SerialBucketWL → Option ((Nat → Nat) × Bool)
  | 0, _, _ => none
  | fuel + 1, d, wl =>
    if bwlEmptyFrom wl wl.cursor then some (d, bwlEmptyFrom wl 0)
    else
      match wl.buckets wl.cursor with
      | [] => serDeltaLoop g shift fuel d (goToNextBucket wl)
      | item :: rest =>
        let wl1 : SerialBucketWL := ⟨updFn wl.buckets wl.cursor rest, wl.maxB, wl.cursor⟩
        if d item.src < item.dist then serDeltaLoop g shift fuel d wl1
        else
          let r := relaxItem g d item
          serDeltaLoop g shift fuel r.1 (r.2.foldl (bwlPush shift) wl1)

/-- `serDeltaAlgo(graph, source, ReqPushWrap(), OutEdgeRangeFn)` of SSSP.cpp
with delta shift `shift`, run from the state set up by `trial`.  Returns the
final in-range distances and the `allEmpty()` flag (`false` means the
`std::abort()` would have been reached). -/
def serDeltaAlgo (g : WGraph) (shift : Nat) (src : Nat) :
    Option (List Nat × Bool) :=
  (serDeltaLoop g shift ((g.n + 1) * (g.n + 1)) (initW g src)
      (bwlPush shift emptyBWL ⟨src, 0⟩)).map
    (fun r => ((List.range g.n).map r.1, r.2))

/-- The edge loop of the `deltaStepAlgo` operator: `sdata` is a reference to
the atomic source datum and is re-read at every edge; `newDist = sdata + ew`
(32-bit); `atomicMin` (modelled as an atomic sequential step: store the
minimum, return the previous value) and push on strict improvement. -/
def relaxEdgesDS (srcN : Nat) (d : Nat → Nat) :
    List (Nat × Nat) → (Nat → Nat) × List UpdateRequest
  | [] => (d, [])
  | (dst, ew) :: rest =>
    let newDist := (d srcN + ew) % M32
    let oldDist := d dst
    if newDist < oldDist then
      let r := relaxEdgesDS srcN (updFn d dst newDist) rest
      (r.1, ⟨dst, newDist⟩ :: r.2)
    else relaxEdgesDS srcN d rest

/-- The `for_each` operator of `deltaStepAlgo` (with `ReqPushWrap` and
`OutEdgeRangeFn`): the stale-item guard returns immediately, otherwise the
item's edges are relaxed; the returned list is what the invocation pushed to
its context. -/
def deltaStepOperator (g : WGraph) (d : Nat → Nat) (item : UpdateRequest) :
    (Nat → Nat) × List UpdateRequest :=
  if d item.src < item.dist then (d, [])
  else relaxEdgesDS item.src d (g.adj item.src)

/-- A run of `deltaStepAlgo` under an arbitrary schedule: the distance map
after the operator has been invoked on the listed items in order (the OBIM
worklist only affects which items appear and in which order). -/
def deltaStepRun (g : WGraph) (d : Nat → Nat) (items : List UpdateRequest) :
    Nat → Nat :=
  items.foldl (fun dd it => (deltaStepOperator g dd it).1) d

/-- The random-source selection loop of `main` in SSSP.cpp: `draws` is the
stream of values produced by `udist()`; the loop keeps drawing while the drawn
node has degree zero.  `fuel` bounds the number of iterations; `none` means
the loop was still running after `fuel` draws. -/
def getDegree (g : WGraph) (v : Nat) : Nat := (g.adj v).length

/-- The do-while loop body of source selection, starting at draw index `i`. -/
def pickSourceLoop (g : WGraph) (draws : Nat → Nat) : Nat → Nat → Option Nat
  | _, 0 => none
  | i, fuel + 1 =>
    let s := draws i
    if getDegree g s = 0 then pickSourceLoop g draws (i + 1) fuel else some s

/-! ### Concrete inputs used by the claims -/

/-- The 10-node chain graph 0 → 1 → ⋯ → 9 of scenario E1. -/
def bfsChain10 : BGraph := ⟨10, fun i => if i + 1 < 10 then [i + 1] else []⟩

/-- A chain graph with `N` nodes. -/
def chainB (N : Nat) : BGraph := ⟨N, fun i => if i + 1 < N then [i + 1] else []⟩

/-- The distance map of the chain after the first `k + 1` nodes are settled. -/
def chainDist (k : Nat) : Nat → Nat :=
  fun j => if j ≤ k then j else DIST_INFINITY

/-- A chain of 2147483650 nodes 0 → 1 → ⋯ → 2147483649 with one extra back
edge 2147483649 → 2147483646: node 2147483646 sits at BFS level
`DIST_INFINITY` and has a second in-edge from a node three levels deeper. -/
def chainBackB : BGraph :=
  ⟨2147483650, fun i =>
    if i = 2147483649 then [2147483646]
    else if i + 1 < 2147483650 then [i + 1] else []⟩

/-- The final distance map of `serialAlgo` on `chainBackB`: the chain values,
except that node 2147483646 was re-discovered through the back edge and ends
at 2147483650. -/
def chainBackFinal : Nat → Nat :=
  updFn (chainDist 2147483649) 2147483646 2147483650

/-- The 4-node graph of scenario E2 with edges (0,1,w=10), (0,2,w=1),
(2,1,w=1), (1,3,w=1). -/
def ssspG4 : WGraph :=
  ⟨4, fun u =>
    if u = 0 then [(1, 10), (2, 1)]
    else if u = 1 then [(3, 1)]
    else if u = 2 then [(1, 1)]
    else []⟩

/-- A 3-node weighted graph on which `item.dist + w` wraps modulo `2 ^ 32`:
0 →(8192) 1 →(4294967295) 2. -/
def ssspOverflow : WGraph :=
  ⟨3, fun u =>
    if u = 0 then [(1, 8192)]
    else if u = 1 then [(2, 4294967295)]
    else []⟩

/-- A 1-node weighted graph with no edges. -/
def ssspNoEdges : WGraph := ⟨1, fun _ => []⟩

/-- A 1-node unweighted graph with no edges. -/
def bfsNoEdges : BGraph := ⟨1, fun _ => []⟩

end GaloisRT

namespace GaloisRT

/-- The BFS round invariant: after `L` completed rounds, `front` is exactly
the set of nodes at BFS level `L`, the nodes with finite datum are exactly
those with a path of length at most `L`, finite data equal the BFS level, and
while the frontier is nonempty the level is bounded through the count of
still-infinite in-range nodes. -/
def BfsInv (g : BGraph) (src L : Nat) (d : Nat → Nat) (front : List Nat) : Prop :=
  (∀ v, v ∈ front ↔ MinLvl g src v L) ∧
  (∀ v, d v ≠ DIST_INFINITY ↔ ∃ k, k ≤ L ∧ PathN g src v k) ∧
  (∀ v k, MinLvl g src v k → k ≤ L → d v = k) ∧
  (front ≠ [] → L + countInfAux d g.n + 1 ≤ g.n)

/-- The canonical round iteration of BFS from the initial state: distances and
frontier after `L` rounds (the frontier freezes at `[]`). -/
def bfsIter (g : BGraph) (src : Nat) : Nat → (Nat → Nat) × List Nat
  | 0 => (initB g src, [src])
  | L + 1 =>
    let s := bfsIter g src L
    match s.2 with
    | [] => (s.1, [])
    | _ => expandFrontier g (L + 1) (s.1, []) s.2

/-! ### Basic helper lemmas -/

theorem updFn_apply_le {d : Nat → Nat} {i v : Nat} (h : v ≤ d i) (j : Nat) :
    updFn d i v j ≤ d j := by
  unfold updFn
  by_cases hj : j = i
  · subst hj; simp [h]
  · simp [hj]

theorem relaxEdges_fst_le (outs : List (Nat × Nat)) (w0 : Nat) (d : Nat → Nat)
    (v : Nat) : (relaxEdges w0 d outs).1 v ≤ d v := by
  induction outs generalizing d with
  | nil => simp [relaxEdges]
  | cons p rest ih =>
    obtain ⟨dst, ew⟩ := p
    unfold relaxEdges
    by_cases h : (w0 + ew) % M32 < d dst
    · simp only [h, if_pos]
      exact le_trans (ih _) (updFn_apply_le (le_of_lt h) v)
    · simp only [h, if_neg, not_false_iff]
      exact ih d

theorem relaxItem_fst_le (g : WGraph) (d : Nat → Nat) (item : UpdateRequest)
    (v : Nat) : (relaxItem g d item).1 v ≤ d v :=
  relaxEdges_fst_le _ _ _ _

theorem relaxEdgesDS_fst_le (outs : List (Nat × Nat)) (srcN : Nat)
    (d : Nat → Nat) (v : Nat) : (relaxEdgesDS srcN d outs).1 v ≤ d v := by
  induction outs generalizing d with
  | nil => simp [relaxEdgesDS]
  | cons p rest ih =>
    obtain ⟨dst, ew⟩ := p
    unfold relaxEdgesDS
    by_cases h : (d srcN + ew) % M32 < d dst
    · simp only [h, if_pos]
      exact le_trans (ih _) (updFn_apply_le (le_of_lt h) v)
    · simp only [h, if_neg, not_false_iff]
      exact ih d

theorem deltaStepOperator_fst_le (g : WGraph) (d : Nat → Nat)
    (item : UpdateRequest) (v : Nat) : (deltaStepOperator g d item).1 v ≤ d v := by
  unfold deltaStepOperator
  by_cases h : d item.src < item.dist
  · simp [h]
  · simp only [h, if_neg, not_false_iff]
    exact relaxEdgesDS_fst_le _ _ _ _

theorem deltaStepRun_le (g : WGraph) (d : Nat → Nat)
    (items : List UpdateRequest) (v : Nat) : deltaStepRun g d items v ≤ d v := by
  induction items generalizing d with
  | nil => simp [deltaStepRun]
  | cons it rest ih =>
    exact le_trans (ih ((deltaStepOperator g d it).1))
      (deltaStepOperator_fst_le g d it v)

theorem serDeltaLoop_fst_le (g : WGraph) (shift fuel : Nat) (d : Nat → Nat)
    (wl : SerialBucketWL) (dp : Nat → Nat) (flag : Bool)
    (h : serDeltaLoop g shift fuel d wl = some (dp, flag)) (v : Nat) :
    dp v ≤ d v := by
  induction fuel generalizing d wl with
  | zero => simp [serDeltaLoop] at h
  | succ fuel ih =>
    unfold serDeltaLoop at h
    by_cases he : bwlEmptyFrom wl wl.cursor
    · simp only [he, if_pos] at h
      obtain ⟨h1, _⟩ := Prod.mk.injEq .. ▸ Option.some.injEq .. ▸ h
      exact h1 ▸ le_refl _
    · simp only [he, if_neg, not_false_iff, Bool.false_eq_true] at h
      cases hb : wl.buckets wl.cursor with
      | nil =>
        rw [hb] at h
        exact ih _ _ h
      | cons item rest =>
        rw [hb] at h
        by_cases hg : d item.src < item.dist
        · simp only [hg, if_pos] at h
          exact ih _ _ h
        · simp only [hg, if_neg, not_false_iff] at h
          exact le_trans (ih _ _ h) (relaxItem_fst_le g d item v)

theorem dijkstraLoop_fst_le (g : WGraph) (fuel : Nat) (d : Nat → Nat)
    (wl : List UpdateRequest) (dp : Nat → Nat)
    (h : dijkstraLoop g fuel d wl = some dp) (v : Nat) : dp v ≤ d v := by
  induction fuel generalizing d wl with
  | zero =>
    unfold dijkstraLoop at h
    cases wl with
    | nil => simp at h; exact h ▸ le_refl _
    | cons a b => simp at h
  | succ fuel ih =>
    unfold dijkstraLoop at h
    cases hp : popMin wl with
    | none =>
      rw [hp] at h
      simp at h
      exact h ▸ le_refl _
    | some pr =>
      obtain ⟨item, rest⟩ := pr
      rw [hp] at h
      by_cases hg : d item.src < item.dist
      · simp only [hg, if_pos] at h
        exact ih _ _ h
      · simp only [hg, if_neg, not_false_iff] at h
        exact le_trans (ih _ _ h) (relaxItem_fst_le g d item v)

theorem serialAlgoLoop_nil (g : BGraph) (fuel : Nat) (d : Nat → Nat) :
    serialAlgoLoop g fuel d [] = some d := by
  cases fuel <;> rfl


/-! ### Claim C1 -/

/-- C1: on the 4-node graph with edges (0,1,10), (0,2,1), (2,1,1), (1,3,1),
source 0, distances initialized to `DIST_INFINITY` with the source at 0, the
serial variants `dijkstraAlgo` and `serDeltaAlgo` (delta shift 1, the indexer
of scenario E2) terminate with final distances d0 = 0, d1 = 2, d2 = 1, d3 = 3
(for `serDeltaAlgo` moreover `allEmpty()` holds on exit). -/
theorem sssp_dijkstra_serDelta_example :
    dijkstraAlgo ssspG4 0 = some [0, 2, 1, 3] ∧
    serDeltaAlgo ssspG4 1 0 = some ([0, 2, 1, 3], true) := by
  constructor
  · decide
  · decide

/-! ### Claim C2 -/

/-- C2: on the 10-node chain 0 → 1 → ⋯ → 9 with source 0 and distances
initialized to `DIST_INFINITY` (source at 0), BFS `serialAlgo` terminates with
final distances [0,1,2,3,4,5,6,7,8,9]. -/
theorem bfs_serial_chain_example :
    serialAlgo bfsChain10 0 = some [0, 1, 2, 3, 4, 5, 6, 7, 8, 9] := by
  decide

/-! ### Claim C6 -/

/-- C6: in the `deltaStepAlgo` operator, a popped item whose node datum has
already dropped below `item.dist` is returned immediately: the distance map is
unchanged and nothing is pushed to the context. -/
theorem deltaStep_stale_item_noop (g : WGraph) (d : Nat → Nat)
    (item : UpdateRequest) (h : d item.src < item.dist) :
    deltaStepOperator g d item = (d, []) := by
  unfold deltaStepOperator
  simp [h]

/-- Witness for C6 at a concrete input: on `ssspG4` with the initial state of
source 0, the item (0, 5) is stale and the operator is a no-op. -/
theorem deltaStep_stale_item_noop_witness :
    initW ssspG4 0 0 < 5 ∧
    deltaStepOperator ssspG4 (initW ssspG4 0) ⟨0, 5⟩ = (initW ssspG4 0, []) :=
  ⟨by decide, deltaStep_stale_item_noop ssspG4 (initW ssspG4 0) ⟨0, 5⟩ (by decide)⟩

/-! ### Claim C4 -/

/-- C4: during a run of any SSSP variant, node distances are monotonically
non-increasing.  Stated for one operator invocation of `deltaStepAlgo`, one
item processing of `serDeltaAlgo` / `dijkstraAlgo` (`relaxItem`), an arbitrary
schedule of `deltaStepAlgo` operator invocations, and for whole runs of the
`serDeltaAlgo` and `dijkstraAlgo` loops from any intermediate state. -/
theorem sssp_distances_nonincreasing :
    (∀ (g : WGraph) (d : Nat → Nat) (item : UpdateRequest) (v : Nat),
      (deltaStepOperator g d item).1 v ≤ d v) ∧
    (∀ (g : WGraph) (d : Nat → Nat) (item : UpdateRequest) (v : Nat),
      (relaxItem g d item).1 v ≤ d v) ∧
    (∀ (g : WGraph) (d : Nat → Nat) (items : List UpdateRequest) (v : Nat),
      deltaStepRun g d items v ≤ d v) ∧
    (∀ (g : WGraph) (shift fuel : Nat) (d : Nat → Nat) (wl : SerialBucketWL)
      (dp : Nat → Nat) (flag : Bool),
      serDeltaLoop g shift fuel d wl = some (dp, flag) → ∀ v, dp v ≤ d v) ∧
    (∀ (g : WGraph) (fuel : Nat) (d : Nat → Nat) (wl : List UpdateRequest)
      (dp : Nat → Nat),
      dijkstraLoop g fuel d wl = some dp → ∀ v, dp v ≤ d v) :=
  ⟨deltaStepOperator_fst_le, relaxItem_fst_le, deltaStepRun_le,
   fun g shift fuel d wl dp flag h v => serDeltaLoop_fst_le g shift fuel d wl dp flag h v,
   fun g fuel d wl dp h v => dijkstraLoop_fst_le g fuel d wl dp h v⟩

/-- Witness for C4 at concrete inputs: the run-level statements applied to the
finished `serDeltaAlgo` and `dijkstraAlgo` runs on `ssspG4`. -/
theorem sssp_distances_nonincreasing_witness :
    (∃ dp flag, serDeltaLoop ssspG4 1 25 (initW ssspG4 0)
        (bwlPush 1 emptyBWL ⟨0, 0⟩) = some (dp, flag) ∧ dp 1 ≤ initW ssspG4 0 1) ∧
    (∃ dp, dijkstraLoop ssspG4 25 (initW ssspG4 0) [⟨0, 0⟩] = some dp ∧
      dp 3 ≤ initW ssspG4 0 3) :=
  ⟨⟨_, _, rfl, sssp_distances_nonincreasing.2.2.2.1 ssspG4 1 25 (initW ssspG4 0)
      (bwlPush 1 emptyBWL ⟨0, 0⟩) _ _ rfl 1⟩,
   ⟨_, rfl, sssp_distances_nonincreasing.2.2.2.2 ssspG4 25 (initW ssspG4 0)
      [⟨0, 0⟩] _ rfl 3⟩⟩

/-! ### Claim C9 -/

/-- C9: `syncAlgo` requires the source to have at least one outgoing edge: for
a source of out-degree 0 the `assert(!next->empty())` after seeding fails,
whereas `serialAlgo` terminates normally (leaving the initial distances). -/
theorem syncAlgo_assert_zero_degree (g : BGraph) (src : Nat)
    (h : g.adj src = []) :
    (syncAlgo g src).1 = false ∧
    serialAlgo g src = some ((List.range g.n).map (initB g src)) := by
  have htiles : pushEdgeTiles g src = [] := by
    unfold pushEdgeTiles
    rw [h]
    rw [chunksB]
    simp
  constructor
  · simp [syncAlgo, htiles]
  · unfold serialAlgo
    have hpos : 0 < (g.n + 1) * (g.n + 1) := Nat.mul_pos (Nat.succ_pos _) (Nat.succ_pos _)
    obtain ⟨f, hf⟩ : ∃ f, (g.n + 1) * (g.n + 1) = f + 1 :=
      ⟨(g.n + 1) * (g.n + 1) - 1, by omega⟩
    rw [hf]
    show (serialAlgoLoop g f (serialProcessEdges 1 (initB g src) (g.adj src)).1
      ([] ++ (serialProcessEdges 1 (initB g src) (g.adj src)).2)).map _ = _
    rw [h]
    show (serialAlgoLoop g f (initB g src) []).map _ = _
    rw [serialAlgoLoop_nil]
    rfl

/-- Witness for C9: the one-node edgeless graph. -/
theorem syncAlgo_assert_zero_degree_witness :
    bfsNoEdges.adj 0 = [] ∧
    (syncAlgo bfsNoEdges 0).1 = false ∧
    serialAlgo bfsNoEdges 0 = some ((List.range bfsNoEdges.n).map (initB bfsNoEdges 0)) :=
  ⟨rfl, syncAlgo_assert_zero_degree bfsNoEdges 0 rfl⟩

/-! ### Claim C10 -/

/-- C10: the random-source selection loop of SSSP `main` terminates only if
some node has outgoing edges: if every in-range node has degree 0 (and the
draws are in range, as `UniDist` guarantees) the loop never returns, whatever
fuel it is given; and whenever it does return a source, that source has
nonzero degree. -/
theorem sssp_source_selection_termination :
    (∀ (g : WGraph) (draws : Nat → Nat),
      (∀ v, v < g.n → g.adj v = []) → (∀ i, draws i < g.n) →
      ∀ i fuel, pickSourceLoop g draws i fuel = none) ∧
    (∀ (g : WGraph) (draws : Nat → Nat) (i fuel s : Nat),
      pickSourceLoop g draws i fuel = some s → getDegree g s ≠ 0) := by
  constructor
  · intro g draws hdeg hin i fuel
    induction fuel generalizing i with
    | zero => rfl
    | succ fuel ih =>
      unfold pickSourceLoop
      have : getDegree g (draws i) = 0 := by
        unfold getDegree
        rw [hdeg _ (hin i)]
        rfl
      simp only [this, if_pos]
      exact ih (i + 1)
  · intro g draws i fuel s h
    induction fuel generalizing i with
    | zero => simp [pickSourceLoop] at h
    | succ fuel ih =>
      unfold pickSourceLoop at h
      by_cases hz : getDegree g (draws i) = 0
      · simp only [hz, if_pos] at h
        exact ih (i + 1) h
      · simp only [hz, if_neg, not_false_iff] at h
        cases h
        exact hz

/-- Witness for C10: the edgeless one-node graph never yields a source; on the
overflow graph the first draw (node 0, degree 1) is returned. -/
theorem sssp_source_selection_termination_witness :
    (∀ v, v < ssspNoEdges.n → ssspNoEdges.adj v = []) ∧
    (∀ i : Nat, (fun _ : Nat => 0) i < ssspNoEdges.n) ∧
    pickSourceLoop ssspNoEdges (fun _ => 0) 0 7 = none ∧
    (pickSourceLoop ssspOverflow (fun _ => 0) 0 1 = some 0 ∧
      getDegree ssspOverflow 0 ≠ 0) :=
  ⟨fun _ _ => rfl, fun _ => Nat.zero_lt_one,
   sssp_source_selection_termination.1 ssspNoEdges (fun _ => 0)
     (fun _ _ => rfl) (fun _ => Nat.zero_lt_one) 0 7,
   ⟨by decide, sssp_source_selection_termination.2 ssspOverflow (fun _ => 0) 0 1 0 (by decide)⟩⟩

/-! ### Claim C8, counterexample -/

/-- C8 fails as stated: on `ssspOverflow` with the default delta shift 13,
`item.dist + w` wraps modulo `2 ^ 32` while draining the bucket at priority 1,
the improved request is pushed at priority 0 below the cursor, and on exit of
the outer loop `allEmpty()` is `false`, so the guarded `std::abort()` runs. -/
theorem serDelta_abort_reachable_cex :
    serDeltaAlgo ssspOverflow 13 0 = some ([0, 8192, 8191], false) := by
  decide

/-! ### Claim C8, amended: no abort without 32-bit wrap-around -/

theorem relaxEdges_bounds (outs : List (Nat × Nat)) (w0 : Nat) (d : Nat → Nat)
    (hw : ∀ p ∈ outs, p.2 ≤ 2147483648) (hw0 : w0 < DIST_INFINITY)
    (hd : ∀ v, d v ≤ DIST_INFINITY) :
    (∀ v, (relaxEdges w0 d outs).1 v ≤ DIST_INFINITY) ∧
    (∀ r ∈ (relaxEdges w0 d outs).2, w0 ≤ r.dist ∧ r.dist < DIST_INFINITY) := by
  induction outs generalizing d with
  | nil => exact ⟨hd, by simp [relaxEdges]⟩
  | cons p rest ih =>
    obtain ⟨dst, ew⟩ := p
    have hew : ew ≤ 2147483648 := hw (dst, ew) (List.mem_cons_self _ _)
    have hnowrap : (w0 + ew) % M32 = w0 + ew := by
      apply Nat.mod_eq_of_lt
      unfold DIST_INFINITY at hw0
      unfold M32
      omega
    unfold relaxEdges
    by_cases h : (w0 + ew) % M32 < d dst
    · simp only [h, if_pos]
      have hlt : w0 + ew < DIST_INFINITY :=
        lt_of_le_of_lt (le_of_eq hnowrap.symm) (lt_of_lt_of_le h (hd dst))
      have hd2 : ∀ v, updFn d dst ((w0 + ew) % M32) v ≤ DIST_INFINITY := by
        intro v
        unfold updFn
        by_cases hv : v = dst
        · simp only [hv, if_pos]
          rw [hnowrap]
          exact le_of_lt hlt
        · simp only [hv, if_neg, not_false_iff]
          exact hd v
      obtain ⟨ihd, ihp⟩ := ih _ (fun p hp => hw p (List.mem_cons_of_mem _ hp)) hd2
      refine ⟨ihd, ?_⟩
      intro r hr
      rcases List.mem_cons.mp hr with hr1 | hr2
      · subst hr1
        simp only
        rw [hnowrap]
        exact ⟨Nat.le_add_right _ _, hlt⟩
      · exact ihp r hr2
    · simp only [h, if_neg, not_false_iff]
      exact ih d (fun p hp => hw p (List.mem_cons_of_mem _ hp)) hd

theorem shiftRight_mono {a b : Nat} (s : Nat) (h : a ≤ b) : a >>> s ≤ b >>> s := by
  simp only [Nat.shiftRight_eq_div_pow]
  exact Nat.div_le_div_right h

theorem bwlPush_preserves (shift : Nat) (wl : SerialBucketWL) (r : UpdateRequest)
    (hr : wl.cursor ≤ r.dist >>> shift ∧ r.dist < DIST_INFINITY)
    (h1 : ∀ i rr, rr ∈ wl.buckets i → rr.dist >>> shift = i ∧ rr.dist < DIST_INFINITY)
    (h2 : ∀ i, i < wl.cursor → wl.buckets i = []) :
    (∀ i rr, rr ∈ (bwlPush shift wl r).buckets i →
      rr.dist >>> shift = i ∧ rr.dist < DIST_INFINITY) ∧
    (∀ i, i < (bwlPush shift wl r).cursor → (bwlPush shift wl r).buckets i = []) ∧
    (bwlPush shift wl r).cursor = wl.cursor := by
  refine ⟨?_, ?_, rfl⟩
  · intro i rr hrr
    unfold bwlPush updFn at hrr
    simp only at hrr
    by_cases hi : i = r.dist >>> shift
    · subst hi
      rw [if_pos rfl] at hrr
      rcases List.mem_append.mp hrr with hm | hm
      · exact h1 _ rr hm
      · rw [List.mem_singleton] at hm
        subst hm
        exact ⟨rfl, hr.2⟩
    · rw [if_neg hi] at hrr
      exact h1 i rr hrr
  · intro i hi
    have hi2 : i < wl.cursor := hi
    show updFn wl.buckets (r.dist >>> shift) _ i = []
    unfold updFn
    have hib : i ≠ r.dist >>> shift := by
      intro hcon
      subst hcon
      exact absurd hr.1 (by omega)
    rw [if_neg hib]
    exact h2 i hi2

theorem bwlPush_foldl_preserves (shift : Nat) (ps : List UpdateRequest)
    (wl : SerialBucketWL)
    (hp : ∀ r ∈ ps, wl.cursor ≤ r.dist >>> shift ∧ r.dist < DIST_INFINITY)
    (h1 : ∀ i rr, rr ∈ wl.buckets i → rr.dist >>> shift = i ∧ rr.dist < DIST_INFINITY)
    (h2 : ∀ i, i < wl.cursor → wl.buckets i = []) :
    (∀ i rr, rr ∈ (ps.foldl (bwlPush shift) wl).buckets i →
      rr.dist >>> shift = i ∧ rr.dist < DIST_INFINITY) ∧
    (∀ i, i < (ps.foldl (bwlPush shift) wl).cursor →
      (ps.foldl (bwlPush shift) wl).buckets i = []) := by
  induction ps generalizing wl with
  | nil => exact ⟨h1, h2⟩
  | cons r rest ih =>
    have hr := hp r (List.mem_cons_self _ _)
    obtain ⟨k1, k2, k3⟩ := bwlPush_preserves shift wl r hr h1 h2
    exact ih (bwlPush shift wl r)
      (fun rr hrr => k3 ▸ hp rr (List.mem_cons_of_mem _ hrr)) k1 k2

theorem scanUp_empty_below (wl : SerialBucketWL) (s : Nat) :
    ∀ k, (∀ i, i < k → wl.buckets i = []) →
    ∀ i, i < scanUp wl k s → wl.buckets i = [] := by
  induction s with
  | zero => intro k hk i hi; exact hk i hi
  | succ s ih =>
    intro k hk i hi
    unfold scanUp at hi
    by_cases he : (wl.buckets k).isEmpty
    · rw [if_pos he] at hi
      refine ih (k + 1) ?_ i hi
      intro j hj
      rcases Nat.lt_succ_iff_lt_or_eq.mp hj with hj1 | hj2
      · exact hk j hj1
      · subst hj2
        exact List.isEmpty_iff.mp he
    · rw [if_neg he] at hi
      exact hk i hi

theorem bwlEmptyFrom_zero_of_cursor (wl : SerialBucketWL)
    (hcur : bwlEmptyFrom wl wl.cursor = true)
    (h2 : ∀ i, i < wl.cursor → wl.buckets i = []) :
    bwlEmptyFrom wl 0 = true := by
  unfold bwlEmptyFrom at hcur ⊢
  rw [List.all_eq_true] at hcur ⊢
  intro i hi
  by_cases hic : i < wl.cursor
  · have : wl.buckets i = [] := h2 i hic
    simp [this]
  · have := hcur i hi
    rcases Bool.or_eq_true_iff.mp this with hb | hb
    · exact absurd (of_decide_eq_true hb) hic
    · simp [hb]

theorem serDeltaLoop_flag (g : WGraph) (shift : Nat) (hw : SmallWeights g) :
    ∀ (fuel : Nat) (d : Nat → Nat) (wl : SerialBucketWL),
    (∀ i rr, rr ∈ wl.buckets i → rr.dist >>> shift = i ∧ rr.dist < DIST_INFINITY) →
    (∀ i, i < wl.cursor → wl.buckets i = []) →
    (∀ v, d v ≤ DIST_INFINITY) →
    ∀ (dp : Nat → Nat) (flag : Bool),
    serDeltaLoop g shift fuel d wl = some (dp, flag) → flag = true := by
  intro fuel
  induction fuel with
  | zero => intro d wl _ _ _ dp flag h; simp [serDeltaLoop] at h
  | succ fuel ih =>
    intro d wl h1 h2 h3 dp flag h
    unfold serDeltaLoop at h
    by_cases he : bwlEmptyFrom wl wl.cursor
    · simp only [he, if_pos] at h
      obtain ⟨_, hflag⟩ := Prod.mk.injEq .. ▸ Option.some.injEq .. ▸ h
      rw [← hflag]
      exact bwlEmptyFrom_zero_of_cursor wl he h2
    · simp only [he, if_neg, not_false_iff, Bool.false_eq_true] at h
      cases hb : wl.buckets wl.cursor with
      | nil =>
        rw [hb] at h
        refine ih d (goToNextBucket wl) h1 ?_ h3 dp flag h
        exact scanUp_empty_below wl _ wl.cursor h2
      | cons item rest =>
        rw [hb] at h
        have hitem : item.dist >>> shift = wl.cursor ∧ item.dist < DIST_INFINITY :=
          h1 wl.cursor item (hb ▸ List.mem_cons_self _ _)
        have h1p : ∀ i rr, rr ∈ updFn wl.buckets wl.cursor rest i →
            rr.dist >>> shift = i ∧ rr.dist < DIST_INFINITY := by
          intro i rr hrr
          unfold updFn at hrr
          by_cases hi : i = wl.cursor
          · rw [if_pos hi] at hrr
            exact h1 i rr (hi ▸ hb ▸ List.mem_cons_of_mem _ hrr)
          · rw [if_neg hi] at hrr
            exact h1 i rr hrr
        have h2p : ∀ i, i < wl.cursor → updFn wl.buckets wl.cursor rest i = [] := by
          intro i hi
          unfold updFn
          rw [if_neg (by omega)]
          exact h2 i hi
        by_cases hg : d item.src < item.dist
        · simp only [hg, if_pos] at h
          exact ih d _ h1p h2p h3 dp flag h
        · simp only [hg, if_neg, not_false_iff] at h
          obtain ⟨hrd, hrp⟩ := relaxEdges_bounds (g.adj item.src) item.dist d
            (fun p hp => hw item.src p hp) hitem.2 h3
          refine ih _ _ ?_ ?_ hrd dp flag h
          · exact (bwlPush_foldl_preserves shift _ _
              (fun r hr => ⟨hitem.1 ▸ shiftRight_mono shift (hrp r hr).1, (hrp r hr).2⟩)
              h1p h2p).1
          · exact (bwlPush_foldl_preserves shift _ _
              (fun r hr => ⟨hitem.1 ▸ shiftRight_mono shift (hrp r hr).1, (hrp r hr).2⟩)
              h1p h2p).2

/-- C8, amended: provided every edge weight is at most `2 ^ 31` (so
`item.dist + w` never wraps modulo `2 ^ 32`), every item pushed while draining
the bucket at priority p has priority at least p, all buckets below the cursor
stay empty, and whenever `serDeltaAlgo` exits its outer loop `allEmpty()`
holds — the guarded `std::abort()` is unreachable. -/
theorem serDelta_abort_unreachable_no_overflow (g : WGraph) (shift src : Nat)
    (hw : SmallWeights g) (ds : List Nat) (flag : Bool)
    (h : serDeltaAlgo g shift src = some (ds, flag)) : flag = true := by
  unfold serDeltaAlgo at h
  rcases Option.map_eq_some'.mp h with ⟨⟨dp, fl⟩, hloop, heq⟩
  have hfl : fl = flag := (congrArg Prod.snd heq :)
  rw [← hfl]
  refine serDeltaLoop_flag g shift hw _ (initW g src) _ ?_ ?_ ?_ dp fl hloop
  · intro i rr hrr
    unfold bwlPush emptyBWL updFn at hrr
    simp only [Nat.zero_shiftRight, List.nil_append] at hrr
    by_cases hi : i = 0
    · rw [if_pos hi] at hrr
      rw [List.mem_singleton] at hrr
      subst hrr
      refine ⟨by simp [Nat.zero_shiftRight, hi], ?_⟩
      show (0 : Nat) < DIST_INFINITY
      decide
    · rw [if_neg hi] at hrr
      exact absurd hrr (List.not_mem_nil _)
  · intro i hi
    exact absurd hi (by simp [bwlPush, emptyBWL])
  · intro v
    unfold initW
    by_cases hv : v = src
    · simp [hv]
    · simp [hv]

/-- Witness for C8's amended theorem: the E2 graph has small weights and its
`serDeltaAlgo` run exits with `allEmpty()` true. -/
theorem serDelta_abort_unreachable_no_overflow_witness :
    SmallWeights ssspG4 ∧ ((true : Bool) = true) := by
  have hsw : SmallWeights ssspG4 := by
    intro u p hp
    simp only [ssspG4] at hp
    split_ifs at hp
    · rcases List.mem_cons.mp hp with rfl | hp2
      · decide
      · rcases List.mem_singleton.mp hp2 with rfl
        decide
    · rcases List.mem_singleton.mp hp with rfl
      decide
    · rcases List.mem_singleton.mp hp with rfl
      decide
    · exact absurd hp (List.not_mem_nil _)
  exact ⟨hsw, serDelta_abort_unreachable_no_overflow ssspG4 1 0 hsw
    [0, 2, 1, 3] true (by decide)⟩

/-! ### Claim C5 -/

theorem syncTrace_stamps_ge (g : BGraph) (fuel : Nat) :
    ∀ (r lvl : Nat) (d : Nat → Nat) (next : List (List Nat)),
    ∀ p ∈ syncTrace g fuel r lvl d next, r + 1 ≤ p.1 := by
  induction fuel with
  | zero => intro r lvl d next p hp; simp [syncTrace] at hp
  | succ fuel ih =>
    intro r lvl d next p hp
    unfold syncTrace at hp
    cases next with
    | nil => simp at hp
    | cons t ts =>
      rcases List.mem_append.mp hp with hm | hm
      · rcases List.mem_map.mp hm with ⟨q, _, hq⟩
        rw [← hq]
      · exact Nat.le_of_succ_le (ih (r + 1) _ _ _ p hm)

theorem pairwise_le_map_const {α : Type} (l : List α) (c : Nat) :
    List.Pairwise (fun a b => a ≤ b) (l.map (fun _ => c)) := by
  induction l with
  | nil => exact List.Pairwise.nil
  | cons x xs ih =>
    refine List.Pairwise.cons ?_ ih
    intro b hb
    rcases List.mem_map.mp hb with ⟨q, _, hq⟩
    rw [← hq]

theorem syncTrace_rounds_sorted (g : BGraph) (fuel : Nat) :
    ∀ (r lvl : Nat) (d : Nat → Nat) (next : List (List Nat)),
    List.Pairwise (fun a b => a ≤ b) ((syncTrace g fuel r lvl d next).map Prod.fst) := by
  induction fuel with
  | zero => intro r lvl d next; simp [syncTrace]
  | succ fuel ih =>
    intro r lvl d next
    unfold syncTrace
    cases next with
    | nil => simp
    | cons t ts =>
      rw [List.map_append]
      rw [List.pairwise_append]
      refine ⟨?_, ih _ _ _ _, ?_⟩
      · have : ((t :: ts).map (fun tt => (r + 1, tt))).map Prod.fst
            = (t :: ts).map (fun _ => r + 1) := by
          rw [List.map_map]
          rfl
        rw [this]
        exact pairwise_le_map_const _ _
      · intro a ha b hb
        have ha2 : a = r + 1 := by
          rcases List.mem_map.mp ha with ⟨q, hqm, hq⟩
          rcases List.mem_map.mp hqm with ⟨tt, _, htt⟩
          rw [← hq, ← htt]
        rcases List.mem_map.mp hb with ⟨p, hp, hpb⟩
        have h2 := syncTrace_stamps_ge g fuel (r + 1) _ _ _ p hp
        rw [ha2, ← hpb]
        omega

theorem filter_stamp_map_self (l : List (List Nat)) (c : Nat) :
    (l.map (fun t => (c, t))).filter (fun p => p.1 == c) = l.map (fun t => (c, t)) := by
  induction l with
  | nil => rfl
  | cons x xs ih =>
    simp only [List.map_cons, List.filter_cons]
    rw [if_pos (by simp)]
    rw [ih]

theorem filter_stamp_map_ne (l : List (List Nat)) (c c2 : Nat) (h : c ≠ c2) :
    (l.map (fun t => (c, t))).filter (fun p => p.1 == c2) = [] := by
  induction l with
  | nil => rfl
  | cons x xs ih =>
    simp only [List.map_cons, List.filter_cons]
    rw [if_neg (by simp [h])]
    exact ih

theorem filter_stamp_trace_hi (g : BGraph) (fuel r lvl c : Nat) (d : Nat → Nat)
    (next : List (List Nat)) (h : c < r + 1) :
    (syncTrace g fuel r lvl d next).filter (fun p => p.1 == c) = [] := by
  rw [List.filter_eq_nil_iff]
  intro p hp
  have := syncTrace_stamps_ge g fuel r lvl d next p hp
  simp only [beq_iff_eq]
  omega

/-- C5: in the bulk-synchronous rounds shared by `syncAlgo` and
`serialSyncAlgo`, processing is strictly round-separated: along the processing
trace the round stamps are non-decreasing (all round-N tiles are processed
before any round-N+1 tile), no tile is processed before round r+1, and the
tiles processed in round r+2 are exactly the tiles pushed to the `next`
container while round r+1 drained `curr`. -/
theorem bulk_synchronous_round_separation :
    (∀ (g : BGraph) (fuel r lvl : Nat) (d : Nat → Nat) (next : List (List Nat)),
      List.Pairwise (fun a b => a ≤ b)
        ((syncTrace g fuel r lvl d next).map Prod.fst)) ∧
    (∀ (g : BGraph) (fuel r lvl : Nat) (d : Nat → Nat) (next : List (List Nat)),
      ∀ p ∈ syncTrace g fuel r lvl d next, r + 1 ≤ p.1) ∧
    (∀ (g : BGraph) (fuel r lvl : Nat) (d : Nat → Nat) (curr : List (List Nat)),
      ((syncTrace g (fuel + 2) r lvl d curr).filter (fun p => p.1 == r + 2)).map
          Prod.snd
        = (syncRound g ((lvl + 1) % M32) d curr).2) := by
  refine ⟨fun g fuel r lvl d next => syncTrace_rounds_sorted g fuel r lvl d next,
    fun g fuel r lvl d next => syncTrace_stamps_ge g fuel r lvl d next, ?_⟩
  intro g fuel r lvl d curr
  cases curr with
  | nil =>
    show ((syncTrace g (fuel + 2) r lvl d []).filter _).map Prod.snd
      = (syncRound g ((lvl + 1) % M32) d []).2
    rfl
  | cons t ts =>
    show ((((t :: ts).map (fun tt => (r + 1, tt))) ++
        syncTrace g (fuel + 1) (r + 1) ((lvl + 1) % M32)
          (syncRound g ((lvl + 1) % M32) d (t :: ts)).1
          (syncRound g ((lvl + 1) % M32) d (t :: ts)).2).filter
        (fun p => p.1 == r + 2)).map Prod.snd = _
    rw [List.filter_append]
    rw [filter_stamp_map_ne _ _ _ (by omega)]
    rw [List.nil_append]
    cases hx : (syncRound g ((lvl + 1) % M32) d (t :: ts)).2 with
    | nil => simp [syncTrace]
    | cons t2 ts2 =>
      show ((syncTrace g (fuel + 1) (r + 1) _ _ (t2 :: ts2)).filter _).map Prod.snd
        = t2 :: ts2
      show ((((t2 :: ts2).map (fun tt => (r + 2, tt))) ++
          syncTrace g fuel (r + 2) _ _ _).filter (fun p => p.1 == r + 2)).map
          Prod.snd = t2 :: ts2
      rw [List.filter_append]
      rw [filter_stamp_map_self]
      rw [filter_stamp_trace_hi g fuel (r + 2) _ (r + 2) _ _ (by omega)]
      rw [List.append_nil]
      rw [List.map_map]
      simp

/-! ### Claims C3 and C7: expansion lemmas -/

theorem expandEdges_not_mem (lvl : Nat) (outs : List Nat) :
    ∀ (d : Nat → Nat) (v : Nat), v ∉ (expandEdges lvl d outs).2 →
    (expandEdges lvl d outs).1 v = d v := by
  induction outs with
  | nil => intro d v _; rfl
  | cons dst rest ih =>
    intro d v hv
    unfold expandEdges at hv ⊢
    by_cases h : d dst = DIST_INFINITY
    · simp only [h, if_pos] at hv ⊢
      have hvd : v ≠ dst := by
        intro hc
        exact hv (hc ▸ List.mem_cons_self _ _)
      have hvr : v ∉ (expandEdges lvl (updFn d dst lvl) rest).2 := by
        intro hc
        exact hv (List.mem_cons_of_mem _ hc)
      rw [ih _ v hvr]
      unfold updFn
      rw [if_neg hvd]
    · simp only [h, if_neg, not_false_iff] at hv ⊢
      exact ih d v hv

theorem expandEdges_mem (lvl : Nat) (outs : List Nat) :
    ∀ (d : Nat → Nat) (v : Nat), v ∈ (expandEdges lvl d outs).2 →
    d v = DIST_INFINITY ∧ (expandEdges lvl d outs).1 v = lvl ∧ v ∈ outs := by
  induction outs with
  | nil => intro d v hv; simp [expandEdges] at hv
  | cons dst rest ih =>
    intro d v hv
    unfold expandEdges at hv ⊢
    by_cases h : d dst = DIST_INFINITY
    · simp only [h, if_pos] at hv ⊢
      rcases List.mem_cons.mp hv with hv1 | hv2
      · subst hv1
        refine ⟨h, ?_, List.mem_cons_self _ _⟩
        by_cases hr : v ∈ (expandEdges lvl (updFn d v lvl) rest).2
        · exact (ih _ v hr).2.1
        · rw [expandEdges_not_mem lvl rest _ v hr]
          unfold updFn
          rw [if_pos rfl]
      · obtain ⟨h1, h2, h3⟩ := ih _ v hv2
        refine ⟨?_, h2, List.mem_cons_of_mem _ h3⟩
        unfold updFn at h1
        by_cases hvd : v = dst
        · exact hvd ▸ h
        · rw [if_neg hvd] at h1
          exact h1
    · simp only [h, if_neg, not_false_iff] at hv ⊢
      obtain ⟨h1, h2, h3⟩ := ih d v hv
      exact ⟨h1, h2, List.mem_cons_of_mem _ h3⟩

theorem expandEdges_inf_mem (lvl : Nat) (outs : List Nat) :
    ∀ (d : Nat → Nat) (v : Nat), v ∈ outs → d v = DIST_INFINITY →
    v ∈ (expandEdges lvl d outs).2 := by
  induction outs with
  | nil => intro d v hv; simp at hv
  | cons dst rest ih =>
    intro d v hv hinf
    unfold expandEdges
    by_cases h : d dst = DIST_INFINITY
    · simp only [h, if_pos]
      rcases List.mem_cons.mp hv with hv1 | hv2
      · exact hv1 ▸ List.mem_cons_self _ _
      · by_cases hvd : v = dst
        · exact hvd ▸ List.mem_cons_self _ _
        · refine List.mem_cons_of_mem _ (ih _ v hv2 ?_)
          unfold updFn
          rw [if_neg hvd]
          exact hinf
    · simp only [h, if_neg, not_false_iff]
      rcases List.mem_cons.mp hv with hv1 | hv2
      · exact absurd (hv1 ▸ hinf) h
      · exact ih d v hv2 hinf

theorem countInfAux_congr (d1 d2 : Nat → Nat) (m : Nat)
    (h : ∀ j, j < m → d1 j = d2 j) : countInfAux d1 m = countInfAux d2 m := by
  induction m with
  | zero => rfl
  | succ m ih =>
    unfold countInfAux
    rw [ih (fun j hj => h j (Nat.lt_succ_of_lt hj))]
    rw [h m (Nat.lt_succ_self m)]

theorem countInfAux_updFn (d : Nat → Nat) (m x v : Nat) (hx : x < m)
    (hdx : d x = DIST_INFINITY) (hv : v ≠ DIST_INFINITY) :
    countInfAux (updFn d x v) m + 1 = countInfAux d m := by
  induction m with
  | zero => omega
  | succ m ih =>
    unfold countInfAux
    by_cases hxm : x = m
    · subst hxm
      have h1 : countInfAux (updFn d x v) x = countInfAux d x := by
        apply countInfAux_congr
        intro j hj
        unfold updFn
        rw [if_neg (by omega)]
      have h2 : updFn d x v x = v := by
        unfold updFn
        rw [if_pos rfl]
      rw [h1, h2, if_neg hv, if_pos hdx]
    · have hx2 : x < m := by omega
      have h2 : updFn d x v m = d m := by
        unfold updFn
        rw [if_neg (by omega)]
      rw [h2]
      have := ih hx2
      omega

theorem countInfAux_pos (d : Nat → Nat) (m x : Nat) (hx : x < m)
    (hdx : d x = DIST_INFINITY) : 1 ≤ countInfAux d m := by
  induction m with
  | zero => omega
  | succ m ih =>
    unfold countInfAux
    by_cases hxm : x = m
    · rw [hxm] at hdx
      rw [if_pos hdx]
      omega
    · have := ih (by omega)
      omega

theorem countInfAux_zero_finite (d : Nat → Nat) (m : Nat)
    (h : countInfAux d m = 0) : ∀ v, v < m → d v ≠ DIST_INFINITY := by
  intro v hv hc
  have := countInfAux_pos d m v hv hc
  omega

theorem expandEdges_count (lvl : Nat) (outs : List Nat) (m : Nat)
    (hlvl : lvl ≠ DIST_INFINITY) :
    ∀ d : Nat → Nat, (∀ v ∈ outs, v < m) →
    countInfAux (expandEdges lvl d outs).1 m + (expandEdges lvl d outs).2.length
      = countInfAux d m := by
  induction outs with
  | nil => intro d _; rfl
  | cons dst rest ih =>
    intro d hm
    unfold expandEdges
    by_cases h : d dst = DIST_INFINITY
    · simp only [h, if_pos, List.length_cons]
      have h1 := ih (updFn d dst lvl) (fun v hv => hm v (List.mem_cons_of_mem _ hv))
      have h2 := countInfAux_updFn d m dst lvl (hm dst (List.mem_cons_self _ _)) h hlvl
      omega
    · simp only [h, if_neg, not_false_iff]
      exact ih d (fun v hv => hm v (List.mem_cons_of_mem _ hv))

theorem expandEdges_all_finite (lvl : Nat) (outs : List Nat) :
    ∀ d : Nat → Nat, (∀ v ∈ outs, d v ≠ DIST_INFINITY) →
    expandEdges lvl d outs = (d, []) := by
  induction outs with
  | nil => intro d _; rfl
  | cons dst rest ih =>
    intro d hfin
    unfold expandEdges
    rw [if_neg (hfin dst (List.mem_cons_self _ _))]
    exact ih d (fun v hv => hfin v (List.mem_cons_of_mem _ hv))

theorem expandFrontier_acc (g : BGraph) (lvl : Nat) (front : List Nat) :
    ∀ (d : Nat → Nat) (acc : List Nat),
    expandFrontier g lvl (d, acc) front =
      ((expandFrontier g lvl (d, []) front).1,
        acc ++ (expandFrontier g lvl (d, []) front).2) := by
  induction front with
  | nil => intro d acc; simp [expandFrontier]
  | cons u rest ih =>
    intro d acc
    show expandFrontier g lvl (expandNode g lvl (d, acc) u) rest = _
    unfold expandNode
    simp only
    rw [ih _ (acc ++ (expandEdges lvl d (g.adj u)).2)]
    have h2 := ih (expandEdges lvl d (g.adj u)).1 (expandEdges lvl d (g.adj u)).2
    show _ = ((expandFrontier g lvl (expandNode g lvl (d, []) u) rest).1,
      acc ++ (expandFrontier g lvl (expandNode g lvl (d, []) u) rest).2)
    unfold expandNode
    simp only [List.nil_append]
    rw [h2]
    rw [List.append_assoc]

theorem expandFrontier_not_mem (g : BGraph) (lvl : Nat) (front : List Nat) :
    ∀ (d : Nat → Nat) (v : Nat), v ∉ (expandFrontier g lvl (d, []) front).2 →
    (expandFrontier g lvl (d, []) front).1 v = d v := by
  induction front with
  | nil => intro d v _; rfl
  | cons u rest ih =>
    intro d v hv
    rw [show expandFrontier g lvl (d, []) (u :: rest)
        = expandFrontier g lvl (expandNode g lvl (d, []) u) rest from rfl] at hv ⊢
    unfold expandNode at hv ⊢
    simp only [List.nil_append] at hv ⊢
    rw [expandFrontier_acc] at hv ⊢
    simp only at hv ⊢
    have hv1 : v ∉ (expandEdges lvl d (g.adj u)).2 := by
      intro hc
      exact hv (List.mem_append.mpr (Or.inl hc))
    have hv2 : v ∉ (expandFrontier g lvl ((expandEdges lvl d (g.adj u)).1, []) rest).2 := by
      intro hc
      exact hv (List.mem_append.mpr (Or.inr hc))
    rw [ih _ v hv2]
    exact expandEdges_not_mem lvl (g.adj u) d v hv1

theorem expandFrontier_mem (g : BGraph) (lvl : Nat) (front : List Nat) :
    ∀ (d : Nat → Nat) (v : Nat), v ∈ (expandFrontier g lvl (d, []) front).2 →
    d v = DIST_INFINITY ∧ (expandFrontier g lvl (d, []) front).1 v = lvl ∧
      ∃ u ∈ front, v ∈ g.adj u := by
  induction front with
  | nil => intro d v hv; simp [expandFrontier] at hv
  | cons u rest ih =>
    intro d v hv
    rw [show expandFrontier g lvl (d, []) (u :: rest)
        = expandFrontier g lvl (expandNode g lvl (d, []) u) rest from rfl] at hv ⊢
    unfold expandNode at hv ⊢
    simp only [List.nil_append] at hv ⊢
    rw [expandFrontier_acc] at hv ⊢
    simp only at hv ⊢
    set e := expandEdges lvl d (g.adj u) with he
    rcases List.mem_append.mp hv with hm | hm
    · obtain ⟨h1, h2, h3⟩ := expandEdges_mem lvl (g.adj u) d v hm
      refine ⟨h1, ?_, ⟨u, List.mem_cons_self _ _, h3⟩⟩
      by_cases hr : v ∈ (expandFrontier g lvl (e.1, []) rest).2
      · exact (ih e.1 v hr).2.1
      · rw [expandFrontier_not_mem g lvl rest e.1 v hr]
        exact h2
    · obtain ⟨h1, h2, u2, hu2, h3⟩ := ih e.1 v hm
      refine ⟨?_, h2, ⟨u2, List.mem_cons_of_mem _ hu2, h3⟩⟩
      by_cases hv1 : v ∈ e.2
      · exact (expandEdges_mem lvl (g.adj u) d v hv1).1
      · rw [expandEdges_not_mem lvl (g.adj u) d v hv1] at h1
        exact h1

theorem expandFrontier_inf_mem (g : BGraph) (lvl : Nat) (front : List Nat) :
    ∀ (d : Nat → Nat) (v : Nat), (∃ u ∈ front, v ∈ g.adj u) →
    d v = DIST_INFINITY → v ∈ (expandFrontier g lvl (d, []) front).2 := by
  induction front with
  | nil => intro d v hv _; simp at hv
  | cons u rest ih =>
    intro d v hv hinf
    obtain ⟨u2, hu2, hedge⟩ := hv
    rw [show expandFrontier g lvl (d, []) (u :: rest)
        = expandFrontier g lvl (expandNode g lvl (d, []) u) rest from rfl]
    unfold expandNode
    simp only [List.nil_append]
    rw [expandFrontier_acc]
    simp only
    set e := expandEdges lvl d (g.adj u) with he
    rcases List.mem_cons.mp hu2 with hc | hc
    · subst hc
      exact List.mem_append.mpr (Or.inl (expandEdges_inf_mem lvl (g.adj u2) d v hedge hinf))
    · by_cases hv1 : v ∈ e.2
      · exact List.mem_append.mpr (Or.inl hv1)
      · refine List.mem_append.mpr (Or.inr (ih e.1 v ⟨u2, hc, hedge⟩ ?_))
        rw [expandEdges_not_mem lvl (g.adj u) d v hv1]
        exact hinf

theorem expandFrontier_keep (g : BGraph) (lvl : Nat) (front : List Nat)
    (d : Nat → Nat) (v : Nat) (h : d v ≠ DIST_INFINITY) :
    (expandFrontier g lvl (d, []) front).1 v = d v := by
  by_cases hv : v ∈ (expandFrontier g lvl (d, []) front).2
  · exact absurd (expandFrontier_mem g lvl front d v hv).1 h
  · exact expandFrontier_not_mem g lvl front d v hv

theorem expandFrontier_count (g : BGraph) (lvl : Nat) (front : List Nat)
    (hlvl : lvl ≠ DIST_INFINITY) (hwf : WFB g) :
    ∀ d : Nat → Nat,
    countInfAux (expandFrontier g lvl (d, []) front).1 g.n +
        (expandFrontier g lvl (d, []) front).2.length
      = countInfAux d g.n := by
  induction front with
  | nil => intro d; rfl
  | cons u rest ih =>
    intro d
    rw [show expandFrontier g lvl (d, []) (u :: rest)
        = expandFrontier g lvl (expandNode g lvl (d, []) u) rest from rfl]
    unfold expandNode
    simp only [List.nil_append]
    rw [expandFrontier_acc]
    simp only [List.length_append]
    have h1 := ih (expandEdges lvl d (g.adj u)).1
    have h2 := expandEdges_count lvl (g.adj u) g.n hlvl d (fun v hv => hwf u v hv)
    omega

theorem expandFrontier_nil_same (g : BGraph) (lvl : Nat) (front : List Nat)
    (d : Nat → Nat) (h : (expandFrontier g lvl (d, []) front).2 = []) :
    (expandFrontier g lvl (d, []) front).1 = d := by
  funext v
  refine expandFrontier_not_mem g lvl front d v ?_
  rw [h]
  exact List.not_mem_nil v

theorem expandFrontier_all_nil (g : BGraph) (lvl : Nat) (front : List Nat) :
    ∀ (d : Nat → Nat) (acc : List Nat), (∀ u ∈ front, g.adj u = []) →
    expandFrontier g lvl (d, acc) front = (d, acc) := by
  induction front with
  | nil => intro d acc _; rfl
  | cons u rest ih =>
    intro d acc hnil
    show expandFrontier g lvl (expandNode g lvl (d, acc) u) rest = _
    unfold expandNode
    rw [hnil u (List.mem_cons_self _ _)]
    show expandFrontier g lvl (d, acc ++ []) rest = _
    rw [List.append_nil]
    exact ih d acc (fun v hv => hnil v (List.mem_cons_of_mem _ hv))

theorem pathN_lt_n (g : BGraph) (src : Nat) (hwf : WFB g) (hs : src < g.n) :
    ∀ {v k : Nat}, PathN g src v k → v < g.n := by
  intro v k h
  induction h with
  | refl => exact hs
  | step _ hedge _ => exact hwf _ _ hedge

theorem pathN_zero (g : BGraph) (src v : Nat) (h : PathN g src v 0) : v = src := by
  cases h
  rfl

theorem minLvl_src (g : BGraph) (src : Nat) : MinLvl g src src 0 :=
  ⟨PathN.refl, fun k _ => Nat.zero_le k⟩

theorem minLvl_exists (g : BGraph) (src : Nat) :
    ∀ (k v : Nat), PathN g src v k → ∃ m, m ≤ k ∧ MinLvl g src v m := by
  intro k
  induction k using Nat.strong_induction_on with
  | _ k ih =>
    intro v hp
    by_cases h : ∃ j, j < k ∧ PathN g src v j
    · obtain ⟨j, hj, hpj⟩ := h
      obtain ⟨m, hm, hmin⟩ := ih j hj v hpj
      exact ⟨m, by omega, hmin⟩
    · push_neg at h
      refine ⟨k, le_refl k, hp, ?_⟩
      intro j hpj
      by_contra hc
      exact absurd hpj (h j (by omega))

theorem minLvl_pred (g : BGraph) (src v k : Nat) (h : MinLvl g src v (k + 1)) :
    ∃ u, MinLvl g src u k ∧ v ∈ g.adj u := by
  obtain ⟨hp, hmin⟩ := h
  cases hp with
  | step hu hedge =>
    rename_i u
    obtain ⟨m, hm, hmin2⟩ := minLvl_exists g src k u hu
    have hmk : m = k := by
      by_contra hc
      have hpv : PathN g src v (m + 1) := PathN.step hmin2.1 hedge
      have := hmin (m + 1) hpv
      omega
    exact ⟨u, hmk ▸ hmin2, hedge⟩

theorem minLvl_unique (g : BGraph) (src v k1 k2 : Nat) (h1 : MinLvl g src v k1)
    (h2 : MinLvl g src v k2) : k1 = k2 :=
  Nat.le_antisymm (h1.2 k2 h2.1) (h2.2 k1 h1.1)

theorem countInfAux_initB (g : BGraph) (src : Nat) :
    ∀ m : Nat, countInfAux (initB g src) m = m - (if src < m then 1 else 0) := by
  intro m
  induction m with
  | zero => rfl
  | succ m ih =>
    unfold countInfAux
    rw [ih]
    by_cases hm : m = src
    · have h1 : initB g src m = 0 := by
        unfold initB
        rw [if_pos hm]
      rw [h1]
      rw [if_neg (by decide : (0 : Nat) ≠ DIST_INFINITY)]
      rw [if_pos (by omega : src < m + 1)]
      rw [if_neg (by omega : ¬ src < m)]
      omega
    · have h1 : initB g src m = DIST_INFINITY := by
        unfold initB
        rw [if_neg hm]
      rw [h1, if_pos rfl]
      by_cases hsm : src < m
      · rw [if_pos hsm, if_pos (by omega)]
        omega
      · rw [if_neg hsm, if_neg (by omega)]
        omega

theorem bfsInv_init (g : BGraph) (src : Nat) (hwf : WFB g) (hs : src < g.n) :
    BfsInv g src 0 (initB g src) [src] := by
  refine ⟨?_, ?_, ?_, ?_⟩
  · intro v
    constructor
    · intro hv
      have hv2 : v = src := List.mem_singleton.mp hv
      exact hv2 ▸ minLvl_src g src
    · intro hv
      have := pathN_zero g src v hv.1
      rw [this]
      exact List.mem_singleton.mpr rfl
  · intro v
    constructor
    · intro hv
      unfold initB at hv
      by_cases hvs : v = src
      · exact ⟨0, le_refl 0, hvs ▸ PathN.refl⟩
      · rw [if_neg hvs] at hv
        exact absurd rfl hv
    · rintro ⟨k, hk, hp⟩
      have hk0 : k = 0 := by omega
      subst hk0
      have hv := pathN_zero g src v hp
      subst hv
      unfold initB
      rw [if_pos rfl]
      decide
  · intro v k hmin hk
    have hk0 : k = 0 := by omega
    subst hk0
    have hv := pathN_zero g src v hmin.1
    subst hv
    unfold initB
    rw [if_pos rfl]
  · intro _
    rw [countInfAux_initB g src g.n, if_pos hs]
    omega

theorem bfsInv_step (g : BGraph) (src : Nat) (hwf : WFB g) (hs : src < g.n)
    (hn : g.n ≤ DIST_INFINITY) (L : Nat) (d : Nat → Nat) (front : List Nat)
    (hinv : BfsInv g src L d front) (hne : front ≠ []) :
    BfsInv g src (L + 1) (expandFrontier g (L + 1) (d, []) front).1
      (expandFrontier g (L + 1) (d, []) front).2 := by
  obtain ⟨p1, p3, p4, p5⟩ := hinv
  have hbound := p5 hne
  have hc1 : (expandFrontier g (L + 1) (d, []) front).2 ≠ [] →
      1 ≤ countInfAux d g.n ∧ L + 2 ≤ g.n := by
    intro hne2
    obtain ⟨v, hv⟩ := List.exists_mem_of_ne_nil _ hne2
    obtain ⟨h1, _, u, _, hedge⟩ := expandFrontier_mem g (L + 1) front d v hv
    have hvn : v < g.n := hwf u v hedge
    have hp := countInfAux_pos d g.n v hvn h1
    exact ⟨hp, by omega⟩
  have hlvl_ne : (expandFrontier g (L + 1) (d, []) front).2 ≠ [] →
      (L + 1 : Nat) ≠ DIST_INFINITY := by
    intro hne2
    have := (hc1 hne2).2
    omega
  have mem_iff : ∀ v, v ∈ (expandFrontier g (L + 1) (d, []) front).2 ↔
      MinLvl g src v (L + 1) := by
    intro v
    constructor
    · intro hv
      obtain ⟨h1, _, u, hu, hedge⟩ := expandFrontier_mem g (L + 1) front d v hv
      have humin : MinLvl g src u L := (p1 u).mp hu
      refine ⟨PathN.step humin.1 hedge, ?_⟩
      intro j hpj
      by_contra hc
      push_neg at hc
      have : d v ≠ DIST_INFINITY := (p3 v).mpr ⟨j, by omega, hpj⟩
      exact this h1
    · intro hmin
      obtain ⟨u, humin, hedge⟩ := minLvl_pred g src v L hmin
      have hu : u ∈ front := (p1 u).mpr humin
      have hdv : d v = DIST_INFINITY := by
        by_contra hc
        obtain ⟨k, hk, hp⟩ := (p3 v).mp hc
        have := hmin.2 k hp
        omega
      exact expandFrontier_inf_mem g (L + 1) front d v ⟨u, hu, hedge⟩ hdv
  refine ⟨mem_iff, ?_, ?_, ?_⟩
  · intro v
    constructor
    · intro hv
      by_cases hvm : v ∈ (expandFrontier g (L + 1) (d, []) front).2
      · exact ⟨L + 1, le_refl _, ((mem_iff v).mp hvm).1⟩
      · rw [expandFrontier_not_mem g (L + 1) front d v hvm] at hv
        obtain ⟨k, hk, hp⟩ := (p3 v).mp hv
        exact ⟨k, by omega, hp⟩
    · rintro ⟨k, hk, hp⟩
      obtain ⟨m, hm, hmin⟩ := minLvl_exists g src k v hp
      by_cases hmL : m ≤ L
      · have hdv : d v ≠ DIST_INFINITY := (p3 v).mpr ⟨m, hmL, hmin.1⟩
        rw [expandFrontier_keep g (L + 1) front d v hdv]
        exact hdv
      · have hmL1 : m = L + 1 := by omega
        subst hmL1
        have hvm : v ∈ (expandFrontier g (L + 1) (d, []) front).2 :=
          (mem_iff v).mpr hmin
        have h2 := (expandFrontier_mem g (L + 1) front d v hvm).2.1
        rw [h2]
        exact hlvl_ne (List.ne_nil_of_mem hvm)
  · intro v k hmin hk
    by_cases hkL : k ≤ L
    · have hdv : d v = k := p4 v k hmin hkL
      have hdne : d v ≠ DIST_INFINITY := by
        rw [hdv]
        omega
      rw [expandFrontier_keep g (L + 1) front d v hdne]
      exact hdv
    · have hk1 : k = L + 1 := by omega
      subst hk1
      have hvm : v ∈ (expandFrontier g (L + 1) (d, []) front).2 :=
        (mem_iff v).mpr hmin
      exact (expandFrontier_mem g (L + 1) front d v hvm).2.1
  · intro hne2
    have hcount := expandFrontier_count g (L + 1) front (hlvl_ne hne2) hwf d
    have hlen : 1 ≤ (expandFrontier g (L + 1) (d, []) front).2.length :=
      List.length_pos.mpr hne2
    omega

theorem bfsIter_succ (g : BGraph) (src L : Nat) :
    bfsIter g src (L + 1) = (match (bfsIter g src L).2 with
      | [] => ((bfsIter g src L).1, [])
      | _ => expandFrontier g (L + 1) ((bfsIter g src L).1, []) (bfsIter g src L).2) :=
  rfl

theorem bfsIter_succ_ne (g : BGraph) (src L : Nat)
    (h : (bfsIter g src L).2 ≠ []) :
    bfsIter g src (L + 1) =
      expandFrontier g (L + 1) ((bfsIter g src L).1, []) (bfsIter g src L).2 := by
  rw [bfsIter_succ]
  cases hf : (bfsIter g src L).2 with
  | nil => exact absurd hf h
  | cons a as => rfl

theorem bfsIter_succ_nil (g : BGraph) (src L : Nat)
    (h : (bfsIter g src L).2 = []) :
    bfsIter g src (L + 1) = ((bfsIter g src L).1, []) := by
  rw [bfsIter_succ]
  rw [h]

theorem bfsIter_stable (g : BGraph) (src L : Nat)
    (h : (bfsIter g src L).2 = []) :
    ∀ j, bfsIter g src (L + j) = ((bfsIter g src L).1, []) := by
  intro j
  induction j with
  | zero =>
    rw [← h]
    exact Prod.mk.eta.symm
  | succ j ih =>
    show bfsIter g src ((L + j) + 1) = _
    have h2 : (bfsIter g src (L + j)).2 = [] := by rw [ih]
    rw [bfsIter_succ_nil g src (L + j) h2, ih]

theorem bfsIter_inv (g : BGraph) (src : Nat) (hwf : WFB g) (hs : src < g.n)
    (hn : g.n ≤ DIST_INFINITY) :
    ∀ L, (∀ j, j < L → (bfsIter g src j).2 ≠ []) →
    BfsInv g src L (bfsIter g src L).1 (bfsIter g src L).2 := by
  intro L
  induction L with
  | zero => intro _; exact bfsInv_init g src hwf hs
  | succ L ih =>
    intro h
    have hLne : (bfsIter g src L).2 ≠ [] := h L (Nat.lt_succ_self L)
    have hinv := ih (fun j hj => h j (Nat.lt_succ_of_lt hj))
    rw [bfsIter_succ_ne g src L hLne]
    exact bfsInv_step g src hwf hs hn L _ _ hinv hLne

theorem bfsIter_empties (g : BGraph) (src : Nat) (hwf : WFB g) (hs : src < g.n)
    (hn : g.n ≤ DIST_INFINITY) : ∃ K, K ≤ g.n ∧ (bfsIter g src K).2 = [] := by
  by_contra hc
  push_neg at hc
  have hall : ∀ j, j < g.n → (bfsIter g src j).2 ≠ [] := by
    intro j hj
    exact hc j (by omega)
  have hinv := bfsIter_inv g src hwf hs hn g.n hall
  have hne := hc g.n (le_refl _)
  have := hinv.2.2.2 hne
  omega

theorem bfs_final (g : BGraph) (src : Nat) (hwf : WFB g) (hs : src < g.n)
    (hn : g.n ≤ DIST_INFINITY) :
    ∃ K, K ≤ g.n ∧ (bfsIter g src K).2 = [] ∧
      (∀ v, ReachableB g src v →
        MinLvl g src v ((bfsIter g src K).1 v) ∧
        (bfsIter g src K).1 v ≠ DIST_INFINITY) ∧
      (∀ v, ¬ ReachableB g src v → (bfsIter g src K).1 v = DIST_INFINITY) := by
  obtain ⟨K0, hK0, hP0⟩ := bfsIter_empties g src hwf hs hn
  have hex : ∃ K, (bfsIter g src K).2 = [] := ⟨K0, hP0⟩
  set K := Nat.find hex with hKdef
  have hKP : (bfsIter g src K).2 = [] := Nat.find_spec hex
  have hKle : K ≤ g.n := le_trans (Nat.find_min' hex hP0) hK0
  have hKmin : ∀ j, j < K → (bfsIter g src j).2 ≠ [] := fun j hj => Nat.find_min hex hj
  have hinv := bfsIter_inv g src hwf hs hn K hKmin
  obtain ⟨p1, p3, p4, _⟩ := hinv
  have hnl : ∀ m v, ¬ MinLvl g src v (K + m) := by
    intro m
    induction m with
    | zero =>
      intro v hm
      have := (p1 v).mpr hm
      rw [hKP] at this
      exact absurd this (List.not_mem_nil v)
    | succ m ih =>
      intro v hm
      obtain ⟨u, hu, _⟩ := minLvl_pred g src v (K + m) hm
      exact ih u hu
  refine ⟨K, hKle, hKP, ?_, ?_⟩
  · rintro v ⟨k, hp⟩
    obtain ⟨m, hmk, hmin⟩ := minLvl_exists g src k v hp
    have hmK : m < K := by
      by_contra hcm
      push_neg at hcm
      have : MinLvl g src v (K + (m - K)) := by
        rwa [show K + (m - K) = m by omega]
      exact hnl (m - K) v this
    have hdv : (bfsIter g src K).1 v = m := p4 v m hmin (by omega)
    constructor
    · rw [hdv]
      exact hmin
    · rw [hdv]
      omega
  · intro v hnr
    by_contra hc
    obtain ⟨k, _, hp⟩ := (p3 v).mp hc
    exact hnr ⟨k, hp⟩

theorem roundsState_nil (g : BGraph) (fuel lvl : Nat) (d : Nat → Nat) :
    roundsState g fuel lvl d [] = (d, []) := by
  cases fuel with
  | zero => rfl
  | succ fuel => rfl

theorem roundsState_succ_ne (g : BGraph) (fuel lvl : Nat) (d : Nat → Nat)
    (front : List Nat) (h : front ≠ []) :
    roundsState g (fuel + 1) lvl d front
      = roundsState g fuel (lvl + 1) (expandFrontier g (lvl + 1) (d, []) front).1
          (expandFrontier g (lvl + 1) (d, []) front).2 := by
  cases front with
  | nil => exact absurd rfl h
  | cons a as => rfl

theorem roundsState_eq_iter (g : BGraph) (src : Nat) :
    ∀ fuel L : Nat,
    roundsState g fuel L (bfsIter g src L).1 (bfsIter g src L).2
      = bfsIter g src (L + fuel) := by
  intro fuel
  induction fuel with
  | zero =>
    intro L
    rw [Nat.add_zero]
    exact Prod.mk.eta
  | succ fuel ih =>
    intro L
    cases hf : (bfsIter g src L).2 with
    | nil =>
      rw [roundsState_nil]
      have := bfsIter_stable g src L hf (fuel + 1)
      rw [this]
    | cons a as =>
      have hne : (bfsIter g src L).2 ≠ [] := by rw [hf]; simp
      rw [roundsState_succ_ne g _ _ _ _ (by simp)]
      have hXX : expandFrontier g (L + 1) ((bfsIter g src L).1, []) (a :: as)
          = bfsIter g src (L + 1) := by
        rw [bfsIter_succ_ne g src L hne, hf]
      rw [hXX]
      have harith : L + (fuel + 1) = (L + 1) + fuel := by omega
      rw [harith]
      exact ih (L + 1)

theorem serialProcessEdges_expand (w : Nat) (outs : List Nat) :
    ∀ d : Nat → Nat, serialProcessEdges w d outs
      = ((expandEdges w d outs).1,
         (expandEdges w d outs).2.map (fun v => Req.mk v ((w + 1) % M32))) := by
  induction outs with
  | nil => intro d; rfl
  | cons dst rest ih =>
    intro d
    unfold serialProcessEdges expandEdges
    by_cases h : d dst = DIST_INFINITY
    · simp only [h, if_pos]
      rw [ih]
      rfl
    · simp only [h, if_neg, not_false_iff]
      exact ih _

theorem serial_queue_round (g : BGraph) (w : Nat) :
    ∀ (front : List Nat) (accN : List Nat) (d : Nat → Nat) (f : Nat),
    serialAlgoLoop g (front.length + f) d
      (front.map (fun u => Req.mk u w) ++ accN.map (fun u => Req.mk u ((w + 1) % M32)))
    = serialAlgoLoop g f (expandFrontier g w (d, accN) front).1
        ((expandFrontier g w (d, accN) front).2.map
          (fun u => Req.mk u ((w + 1) % M32))) := by
  intro front
  induction front with
  | nil =>
    intro accN d f
    have h0 : ([] : List Nat).length + f = f := by simp
    rw [h0]
    rfl
  | cons u rest ih =>
    intro accN d f
    have hlen : (u :: rest).length + f = (rest.length + f) + 1 := by
      simp [List.length_cons]
      omega
    rw [hlen]
    show serialAlgoLoop g (rest.length + f) (serialProcessEdges w d (g.adj u)).1
      ((rest.map (fun v => Req.mk v w) ++ accN.map (fun v => Req.mk v ((w + 1) % M32)))
        ++ (serialProcessEdges w d (g.adj u)).2) = _
    rw [serialProcessEdges_expand]
    rw [List.append_assoc, ← List.map_append]
    exact ih (accN ++ (expandEdges w d (g.adj u)).2) (expandEdges w d (g.adj u)).1 f

theorem serial_rounds_sim (g : BGraph) (src : Nat) (hwf : WFB g) (hs : src < g.n)
    (hn : g.n ≤ DIST_INFINITY) :
    ∀ (R : Nat) (L : Nat) (d : Nat → Nat) (front : List Nat),
    BfsInv g src L d front → (roundsState g R L d front).2 = [] →
    ∃ F, F ≤ front.length + (g.n + 1) * countInfAux d g.n ∧ ∀ f : Nat,
      serialAlgoLoop g (F + f) d (front.map (fun u => Req.mk u (L + 1)))
        = some (roundsState g R L d front).1 := by
  intro R
  induction R with
  | zero =>
    intro L d front hinv hemp
    have hfr : front = [] := hemp
    refine ⟨0, Nat.zero_le _, ?_⟩
    intro f
    rw [hfr]
    have h0 : (0 : Nat) + f = f := by omega
    rw [h0]
    show serialAlgoLoop g f d [] = some d
    rw [serialAlgoLoop_nil]
  | succ R ih =>
    intro L d front hinv hemp
    cases front with
    | nil =>
      refine ⟨0, Nat.zero_le _, ?_⟩
      intro f
      rw [roundsState_nil]
      have h0 : (0 : Nat) + f = f := by omega
      rw [h0]
      show serialAlgoLoop g f d [] = some d
      rw [serialAlgoLoop_nil]
    | cons u rest =>
      have hne : (u :: rest) ≠ ([] : List Nat) := by simp
      have hstep : roundsState g (R + 1) L d (u :: rest)
          = roundsState g R (L + 1)
              (expandFrontier g (L + 1) (d, []) (u :: rest)).1
              (expandFrontier g (L + 1) (d, []) (u :: rest)).2 :=
        roundsState_succ_ne g R L d (u :: rest) hne
      have hinv2 := bfsInv_step g src hwf hs hn L d (u :: rest) hinv hne
      have hemp2 : (roundsState g R (L + 1)
          (expandFrontier g (L + 1) (d, []) (u :: rest)).1
          (expandFrontier g (L + 1) (d, []) (u :: rest)).2).2 = [] := by
        rw [← hstep]
        exact hemp
      obtain ⟨F2, hF2, hall2⟩ := ih (L + 1) _ _ hinv2 hemp2
      refine ⟨(u :: rest).length + F2, ?_, ?_⟩
      · by_cases hx2 : (expandFrontier g (L + 1) (d, []) (u :: rest)).2 = []
        · have hXd := expandFrontier_nil_same g (L + 1) (u :: rest) d hx2
          rw [hXd, hx2] at hF2
          simp at hF2
          omega
        · have hlvl : (L + 1 : Nat) ≠ DIST_INFINITY := by
            have hb := hinv2.2.2.2 hx2
            omega
          have hcnt := expandFrontier_count g (L + 1) (u :: rest) hlvl hwf d
          have hlen : 1 ≤ (expandFrontier g (L + 1) (d, []) (u :: rest)).2.length :=
            List.length_pos.mpr hx2
          have hsplit : countInfAux d g.n
              = countInfAux (expandFrontier g (L + 1) (d, []) (u :: rest)).1 g.n
                + (expandFrontier g (L + 1) (d, []) (u :: rest)).2.length := by
            omega
          rw [hsplit, Nat.mul_add]
          have hmul : (expandFrontier g (L + 1) (d, []) (u :: rest)).2.length
              ≤ (g.n + 1) * (expandFrontier g (L + 1) (d, []) (u :: rest)).2.length :=
            Nat.le_mul_of_pos_left _ (Nat.succ_pos _)
          omega
      · intro f
        have harr : (u :: rest).length + F2 + f = (u :: rest).length + (F2 + f) := by
          omega
        rw [harr]
        have hq := serial_queue_round g (L + 1) (u :: rest) [] d (F2 + f)
        rw [show (([] : List Nat).map (fun v => Req.mk v ((L + 1 + 1) % M32))) = [] from rfl] at hq
        rw [List.append_nil] at hq
        rw [hq]
        have hmod : (L + 1 + 1) % M32 = L + 2 := by
          apply Nat.mod_eq_of_lt
          have hb := hinv.2.2.2 hne
          unfold DIST_INFINITY at hn
          unfold M32
          omega
        rw [hmod]
        rw [hstep]
        exact hall2 f

theorem chunksB_flatten_aux : ∀ (m : Nat) (l : List Nat), l.length ≤ m →
    (chunksB l).flatten = l := by
  intro m
  induction m with
  | zero =>
    intro l hl
    have hl0 : l = [] := List.length_eq_zero.mp (by omega)
    subst hl0
    rw [chunksB]
    simp
  | succ m ih =>
    intro l hl
    rw [chunksB]
    by_cases h1 : l.length ≤ 256
    · rw [if_pos h1]
      by_cases h2 : l.isEmpty
      · rw [if_pos h2]
        have : l = [] := List.isEmpty_iff.mp h2
        rw [this]
        rfl
      · rw [if_neg h2]
        simp [List.flatten_cons]
    · rw [if_neg h1]
      rw [List.flatten_cons]
      have hdrop : (l.drop 256).length ≤ m := by
        simp [List.length_drop]
        omega
      rw [ih _ hdrop]
      exact List.take_append_drop 256 l

theorem chunksB_flatten (l : List Nat) : (chunksB l).flatten = l :=
  chunksB_flatten_aux l.length l (le_refl _)

theorem chunksB_eq_nil (l : List Nat) (h : chunksB l = []) : l = [] := by
  have := chunksB_flatten l
  rw [h] at this
  exact this.symm

theorem pushEdgeTiles_flatten (g : BGraph) : ∀ u, (pushEdgeTiles g u).flatten = g.adj u :=
  fun u => chunksB_flatten (g.adj u)

theorem foldl_tiles_flatten (g : BGraph) (lvl : Nat) :
    ∀ (ts : List (List Nat)) (s : (Nat → Nat) × List (List Nat)),
    ts.foldl (procTileSync g lvl) s = ts.flatten.foldl (procEdgeSync g lvl) s := by
  intro ts
  induction ts with
  | nil => intro s; rfl
  | cons t ts ih =>
    intro s
    show ts.foldl (procTileSync g lvl) (procTileSync g lvl s t) = _
    rw [ih]
    rw [List.flatten_cons, List.foldl_append]
    rfl

theorem sync_edges_corr (g : BGraph) (lvl : Nat) :
    ∀ (outs : List Nat) (d : Nat → Nat) (nts : List (List Nat)),
    outs.foldl (procEdgeSync g lvl) (d, nts)
      = ((expandEdges lvl d outs).1,
         nts ++ ((expandEdges lvl d outs).2.map (pushEdgeTiles g)).flatten) := by
  intro outs
  induction outs with
  | nil =>
    intro d nts
    show (d, nts) = (d, nts ++ [])
    rw [List.append_nil]
  | cons dst rest ih =>
    intro d nts
    show rest.foldl (procEdgeSync g lvl) (procEdgeSync g lvl (d, nts) dst) = _
    by_cases h : d dst = DIST_INFINITY
    · have hhead : procEdgeSync g lvl (d, nts) dst
          = (updFn d dst lvl, nts ++ pushEdgeTiles g dst) := by
        simp only [procEdgeSync]
        rw [if_pos h]
      have hexp : expandEdges lvl d (dst :: rest)
          = ((expandEdges lvl (updFn d dst lvl) rest).1,
             dst :: (expandEdges lvl (updFn d dst lvl) rest).2) := by
        show (if d dst = DIST_INFINITY then
            ((expandEdges lvl (updFn d dst lvl) rest).1,
             dst :: (expandEdges lvl (updFn d dst lvl) rest).2)
          else expandEdges lvl d rest) = _
        rw [if_pos h]
      rw [hhead, ih, hexp]
      simp only
      rw [List.map_cons, List.flatten_cons, List.append_assoc]
    · have hhead : procEdgeSync g lvl (d, nts) dst = (d, nts) := by
        simp only [procEdgeSync]
        rw [if_neg h]
      have hexp : expandEdges lvl d (dst :: rest) = expandEdges lvl d rest := by
        show (if d dst = DIST_INFINITY then
            ((expandEdges lvl (updFn d dst lvl) rest).1,
             dst :: (expandEdges lvl (updFn d dst lvl) rest).2)
          else expandEdges lvl d rest) = _
        rw [if_neg h]
      rw [hhead, ih, hexp]

theorem sync_front_corr (g : BGraph) (lvl : Nat) :
    ∀ (front : List Nat) (d : Nat → Nat) (accN : List Nat),
    (front.map g.adj).flatten.foldl (procEdgeSync g lvl)
        (d, (accN.map (pushEdgeTiles g)).flatten)
      = ((expandFrontier g lvl (d, accN) front).1,
         ((expandFrontier g lvl (d, accN) front).2.map (pushEdgeTiles g)).flatten) := by
  intro front
  induction front with
  | nil => intro d accN; rfl
  | cons u rest ih =>
    intro d accN
    rw [List.map_cons, List.flatten_cons, List.foldl_append]
    rw [sync_edges_corr g lvl (g.adj u) d ((List.map (pushEdgeTiles g) accN).flatten)]
    have hacc : (accN.map (pushEdgeTiles g)).flatten
        ++ ((expandEdges lvl d (g.adj u)).2.map (pushEdgeTiles g)).flatten
        = ((accN ++ (expandEdges lvl d (g.adj u)).2).map (pushEdgeTiles g)).flatten := by
      rw [List.map_append, List.flatten_append]
    rw [hacc]
    exact ih (expandEdges lvl d (g.adj u)).1 (accN ++ (expandEdges lvl d (g.adj u)).2)

theorem sync_round_corr (g : BGraph) (lvl : Nat) (front : List Nat) (d : Nat → Nat) :
    syncRound g lvl d (front.map (pushEdgeTiles g)).flatten
      = ((expandFrontier g lvl (d, []) front).1,
         ((expandFrontier g lvl (d, []) front).2.map (pushEdgeTiles g)).flatten) := by
  unfold syncRound
  rw [foldl_tiles_flatten]
  have hjoin : ((front.map (pushEdgeTiles g)).flatten).flatten
      = (front.map g.adj).flatten := by
    rw [List.flatten_flatten, List.map_map]
    have hfn : (List.flatten ∘ pushEdgeTiles g) = g.adj :=
      funext (fun u => pushEdgeTiles_flatten g u)
    rw [hfn]
  rw [hjoin]
  exact sync_front_corr g lvl front d []

theorem serialSync_rounds_sim (g : BGraph) (src : Nat) (hwf : WFB g)
    (hs : src < g.n) (hn : g.n ≤ DIST_INFINITY) :
    ∀ (R L : Nat) (d : Nat → Nat) (front : List Nat), BfsInv g src L d front →
    (roundsState g R L d front).2 = [] →
    serialSyncLoop g R L d ((front.map (pushEdgeTiles g)).flatten)
      = some (roundsState g R L d front).1 := by
  intro R
  induction R with
  | zero =>
    intro L d front hinv hemp
    have hfr : front = [] := hemp
    subst hfr
    rfl
  | succ R ih =>
    intro L d front hinv hemp
    cases front with
    | nil =>
      rw [roundsState_nil]
      rfl
    | cons u rest =>
      have hne : (u :: rest) ≠ ([] : List Nat) := by simp
      have hstep : roundsState g (R + 1) L d (u :: rest)
          = roundsState g R (L + 1)
              (expandFrontier g (L + 1) (d, []) (u :: rest)).1
              (expandFrontier g (L + 1) (d, []) (u :: rest)).2 :=
        roundsState_succ_ne g R L d (u :: rest) hne
      have hinv2 := bfsInv_step g src hwf hs hn L d (u :: rest) hinv hne
      have hemp2 : (roundsState g R (L + 1)
          (expandFrontier g (L + 1) (d, []) (u :: rest)).1
          (expandFrontier g (L + 1) (d, []) (u :: rest)).2).2 = [] := by
        rw [← hstep]
        exact hemp
      have hmod : (L + 1) % M32 = L + 1 := by
        apply Nat.mod_eq_of_lt
        have hb := hinv.2.2.2 hne
        unfold DIST_INFINITY at hn
        unfold M32
        omega
      cases hts : (((u :: rest).map (pushEdgeTiles g)).flatten) with
      | nil =>
        have hadj : ∀ x ∈ u :: rest, g.adj x = [] := by
          intro x hx
          have htx : pushEdgeTiles g x = [] := by
            have := List.flatten_eq_nil_iff.mp hts
            exact this _ (List.mem_map.mpr ⟨x, hx, rfl⟩)
          exact chunksB_eq_nil _ htx
        have hX : expandFrontier g (L + 1) (d, []) (u :: rest) = (d, []) :=
          expandFrontier_all_nil g (L + 1) (u :: rest) d [] hadj
        rw [hstep, hX, roundsState_nil]
        rfl
      | cons t ts =>
        show serialSyncLoop g R ((L + 1) % M32)
            (syncRound g ((L + 1) % M32) d (t :: ts)).1
            (syncRound g ((L + 1) % M32) d (t :: ts)).2
          = some (roundsState g (R + 1) L d (u :: rest)).1
        rw [hmod, ← hts]
        rw [sync_round_corr]
        rw [hstep]
        exact ih (L + 1) _ _ hinv2 hemp2

theorem rounds_full_run (g : BGraph) (src : Nat) (hwf : WFB g) (hs : src < g.n)
    (hn : g.n ≤ DIST_INFINITY) :
    ∀ K, K ≤ g.n → (bfsIter g src K).2 = [] →
    roundsState g (g.n + 1) 0 (initB g src) [src] = ((bfsIter g src K).1, []) := by
  intro K hK hKP
  have h1 : roundsState g (g.n + 1) 0 (initB g src) [src]
      = bfsIter g src (0 + (g.n + 1)) :=
    roundsState_eq_iter g src (g.n + 1) 0
  rw [h1]
  have h2 : 0 + (g.n + 1) = K + (g.n + 1 - K) := by omega
  rw [h2]
  exact bfsIter_stable g src K hKP (g.n + 1 - K)

theorem serialAlgo_runs (g : BGraph) (src : Nat) (hwf : WFB g) (hs : src < g.n)
    (hn : g.n ≤ DIST_INFINITY) (dF : Nat → Nat)
    (hrun : (roundsState g (g.n + 1) 0 (initB g src) [src]).1 = dF)
    (hemp : (roundsState g (g.n + 1) 0 (initB g src) [src]).2 = []) :
    serialAlgo g src = some ((List.range g.n).map dF) := by
  obtain ⟨F, hF, hall⟩ := serial_rounds_sim g src hwf hs hn (g.n + 1) 0
    (initB g src) [src] (bfsInv_init g src hwf hs) hemp
  have hcnt : countInfAux (initB g src) g.n = g.n - 1 := by
    rw [countInfAux_initB g src g.n, if_pos hs]
  rw [hcnt] at hF
  have hFle : F ≤ (g.n + 1) * (g.n + 1) := by
    have hmul : (g.n + 1) * (g.n - 1) + (g.n + 1) * 2 = (g.n + 1) * (g.n + 1) := by
      rw [← Nat.mul_add]
      have : g.n - 1 + 2 = g.n + 1 := by omega
      rw [this]
    simp only [List.length_cons, List.length_nil] at hF
    omega
  have hsplit : F + ((g.n + 1) * (g.n + 1) - F) = (g.n + 1) * (g.n + 1) := by omega
  have hfinal := hall ((g.n + 1) * (g.n + 1) - F)
  rw [hsplit] at hfinal
  unfold serialAlgo
  have hwl : ([src].map (fun u => Req.mk u (0 + 1))) = [Req.mk src 1] := rfl
  rw [hwl] at hfinal
  rw [hfinal, hrun]
  rfl

theorem serialSyncAlgo_runs (g : BGraph) (src : Nat) (hwf : WFB g) (hs : src < g.n)
    (hn : g.n ≤ DIST_INFINITY) (dF : Nat → Nat)
    (hrun : (roundsState g (g.n + 1) 0 (initB g src) [src]).1 = dF)
    (hemp : (roundsState g (g.n + 1) 0 (initB g src) [src]).2 = []) :
    serialSyncAlgo g src = some ((List.range g.n).map dF) := by
  have hsim := serialSync_rounds_sim g src hwf hs hn (g.n + 1) 0
    (initB g src) [src] (bfsInv_init g src hwf hs) hemp
  have htiles : (([src].map (pushEdgeTiles g)).flatten) = pushEdgeTiles g src := by
    show pushEdgeTiles g src ++ [] = pushEdgeTiles g src
    rw [List.append_nil]
  rw [htiles] at hsim
  unfold serialSyncAlgo
  rw [hsim, hrun]
  rfl

theorem range_map_getD (n v : Nat) (f : Nat → Nat) (hv : v < n) :
    ((List.range n).map f).getD v 0 = f v := by
  rw [List.getD_eq_getElem?_getD, List.getElem?_map, List.getElem?_range hv]
  rfl

/-! ### Claim C7 -/

/-- C7, amended: for every well-formed graph with at most `DIST_INFINITY`
nodes (so that every BFS level stays below `DIST_INFINITY`) and every in-range
source, `serialAlgo` and `serialSyncAlgo` compute identical final distance
arrays; each node reachable from the source gets its BFS level (the least
path length, in particular a finite value) and every other node keeps
`DIST_INFINITY`. -/
theorem bfs_serial_serialSync_agree (g : BGraph) (src : Nat) (hwf : WFB g)
    (hs : src < g.n) (hn : g.n ≤ DIST_INFINITY) :
    ∃ dF : Nat → Nat, serialAlgo g src = some ((List.range g.n).map dF) ∧
      serialSyncAlgo g src = some ((List.range g.n).map dF) ∧
      ∀ v, (ReachableB g src v → MinLvl g src v (dF v) ∧ dF v ≠ DIST_INFINITY) ∧
        (¬ ReachableB g src v → dF v = DIST_INFINITY) := by
  obtain ⟨K, hK, hKP, hreach, hunreach⟩ := bfs_final g src hwf hs hn
  have hrun := rounds_full_run g src hwf hs hn K hK hKP
  refine ⟨(bfsIter g src K).1, ?_, ?_, ?_⟩
  · exact serialAlgo_runs g src hwf hs hn _ (by rw [hrun]) (by rw [hrun])
  · exact serialSyncAlgo_runs g src hwf hs hn _ (by rw [hrun]) (by rw [hrun])
  · intro v
    exact ⟨hreach v, hunreach v⟩

/-- Witness for C7: the 10-node chain of scenario E1. -/
theorem bfs_serial_serialSync_agree_witness :
    WFB bfsChain10 ∧ 0 < bfsChain10.n ∧ bfsChain10.n ≤ DIST_INFINITY ∧
    (∃ dF : Nat → Nat,
      serialAlgo bfsChain10 0 = some ((List.range bfsChain10.n).map dF) ∧
      serialSyncAlgo bfsChain10 0 = some ((List.range bfsChain10.n).map dF) ∧
      ∀ v, (ReachableB bfsChain10 0 v →
              MinLvl bfsChain10 0 v (dF v) ∧ dF v ≠ DIST_INFINITY) ∧
        (¬ ReachableB bfsChain10 0 v → dF v = DIST_INFINITY)) := by
  have hwf : WFB bfsChain10 := by
    intro u v hv
    simp only [bfsChain10] at hv ⊢
    split_ifs at hv with h
    · rw [List.mem_singleton] at hv
      omega
    · exact absurd hv (List.not_mem_nil v)
  exact ⟨hwf, by decide, by decide,
    bfs_serial_serialSync_agree bfsChain10 0 hwf (by decide) (by decide)⟩

/-! ### Claim C3, amended theorem -/

/-- C3, amended: for every well-formed graph with at most `DIST_INFINITY`
nodes (so that every BFS level stays below `DIST_INFINITY`) and every in-range
source, `serialAlgo` terminates, every node reachable from the source ends
with a finite distance, and every unreachable node keeps `DIST_INFINITY`. -/
theorem bfs_serial_completeness_bounded (g : BGraph) (src : Nat) (hwf : WFB g)
    (hs : src < g.n) (hn : g.n ≤ DIST_INFINITY) :
    ∃ dF : Nat → Nat, serialAlgo g src = some ((List.range g.n).map dF) ∧
      (∀ v, ReachableB g src v → dF v ≠ DIST_INFINITY) ∧
      (∀ v, ¬ ReachableB g src v → dF v = DIST_INFINITY) := by
  obtain ⟨K, hK, hKP, hreach, hunreach⟩ := bfs_final g src hwf hs hn
  have hrun := rounds_full_run g src hwf hs hn K hK hKP
  refine ⟨(bfsIter g src K).1, ?_, ?_, ?_⟩
  · exact serialAlgo_runs g src hwf hs hn _ (by rw [hrun]) (by rw [hrun])
  · intro v hv
    exact (hreach v hv).2
  · exact hunreach

/-- Witness for C3's amended theorem: the one-node edgeless graph. -/
theorem bfs_serial_completeness_bounded_witness :
    WFB bfsNoEdges ∧ 0 < bfsNoEdges.n ∧ bfsNoEdges.n ≤ DIST_INFINITY ∧
    (∃ dF : Nat → Nat,
      serialAlgo bfsNoEdges 0 = some ((List.range bfsNoEdges.n).map dF) ∧
      (∀ v, ReachableB bfsNoEdges 0 v → dF v ≠ DIST_INFINITY) ∧
      (∀ v, ¬ ReachableB bfsNoEdges 0 v → dF v = DIST_INFINITY)) := by
  have hwf : WFB bfsNoEdges := by
    intro u v hv
    exact absurd hv (List.not_mem_nil v)
  exact ⟨hwf, by decide, by decide,
    bfs_serial_completeness_bounded bfsNoEdges 0 hwf (by decide) (by decide)⟩

/-! ### Claim C3, counterexample -/

theorem chainB_adj (N k : Nat) (h : k + 1 < N) : (chainB N).adj k = [k + 1] := by
  simp [chainB, h]

theorem chainB_adj_last (N k : Nat) (h : ¬ k + 1 < N) : (chainB N).adj k = [] := by
  simp [chainB, h]

theorem chainDist_infty (k j : Nat) (h : k < j) : chainDist k j = DIST_INFINITY := by
  unfold chainDist
  rw [if_neg (by omega)]

theorem chainDist_upd (k : Nat) :
    updFn (chainDist k) (k + 1) (k + 1) = chainDist (k + 1) := by
  funext j
  unfold updFn chainDist
  by_cases hj : j = k + 1
  · rw [if_pos hj, if_pos (by omega)]
    omega
  · rw [if_neg hj]
    by_cases hjk : j ≤ k
    · rw [if_pos hjk, if_pos (by omega)]
    · rw [if_neg hjk, if_neg (by omega)]

theorem initB_chain (N : Nat) : initB (chainB N) 0 = chainDist 0 := by
  funext j
  unfold initB chainDist
  by_cases hj : j = 0
  · rw [if_pos hj, if_pos (by omega)]
    omega
  · rw [if_neg hj, if_neg (by omega)]

theorem chain_serial_step (N k f : Nat) (hk : k + 1 < N) (hM : k + 2 < M32) :
    serialAlgoLoop (chainB N) (f + 1) (chainDist k) [⟨k, k + 1⟩]
      = serialAlgoLoop (chainB N) f (chainDist (k + 1)) [⟨k + 1, k + 2⟩] := by
  show serialAlgoLoop (chainB N) f
      (serialProcessEdges (k + 1) (chainDist k) ((chainB N).adj k)).1
      ([] ++ (serialProcessEdges (k + 1) (chainDist k) ((chainB N).adj k)).2) = _
  rw [chainB_adj N k hk]
  have hproc : serialProcessEdges (k + 1) (chainDist k) [k + 1]
      = (chainDist (k + 1), [⟨k + 1, k + 2⟩]) := by
    show (if chainDist k (k + 1) = DIST_INFINITY then
        ((serialProcessEdges (k + 1) (updFn (chainDist k) (k + 1) (k + 1)) []).1,
          (⟨k + 1, (k + 1 + 1) % M32⟩ : Req) ::
            (serialProcessEdges (k + 1) (updFn (chainDist k) (k + 1) (k + 1)) []).2)
      else serialProcessEdges (k + 1) (chainDist k) []) = _
    rw [if_pos (chainDist_infty k (k + 1) (by omega))]
    show ((updFn (chainDist k) (k + 1) (k + 1), (⟨k + 1, (k + 1 + 1) % M32⟩ : Req) :: [])
        : (Nat → Nat) × List Req) = _
    rw [chainDist_upd]
    have hmod : (k + 1 + 1) % M32 = k + 2 := Nat.mod_eq_of_lt hM
    rw [hmod]
  rw [hproc]
  rfl

theorem chain_serial_run (N : Nat) (hN : N ≤ 2147483648) :
    ∀ (m k f : Nat), k + m + 1 = N → m + 1 ≤ f →
    serialAlgoLoop (chainB N) f (chainDist k) [⟨k, k + 1⟩]
      = some (chainDist (N - 1)) := by
  intro m
  induction m with
  | zero =>
    intro k f hkm hf
    obtain ⟨f2, rfl⟩ : ∃ f2, f = f2 + 1 := ⟨f - 1, by omega⟩
    show serialAlgoLoop (chainB N) f2
        (serialProcessEdges (k + 1) (chainDist k) ((chainB N).adj k)).1
        ([] ++ (serialProcessEdges (k + 1) (chainDist k) ((chainB N).adj k)).2) = _
    rw [chainB_adj_last N k (by omega)]
    show serialAlgoLoop (chainB N) f2 (chainDist k) [] = _
    rw [serialAlgoLoop_nil]
    have hkN : k = N - 1 := by omega
    rw [hkN]
  | succ m ih =>
    intro k f hkm hf
    obtain ⟨f2, rfl⟩ : ∃ f2, f = f2 + 1 := ⟨f - 1, by omega⟩
    rw [chain_serial_step N k f2 (by omega) (by unfold M32; omega)]
    exact ih (k + 1) f2 (by omega) (by omega)

theorem chain_path (N : Nat) : ∀ k, k < N → PathN (chainB N) 0 k k := by
  intro k
  induction k with
  | zero => intro _; exact PathN.refl
  | succ k ih =>
    intro hk
    refine PathN.step (ih (by omega)) ?_
    rw [chainB_adj N k (by omega)]
    exact List.mem_singleton.mpr rfl

/-- C3 fails as stated: on the chain graph with 2147483647 nodes, the last
node (index 2147483646, whose BFS level equals `DIST_INFINITY`) is reachable
from source 0, `serialAlgo` terminates, and yet that node's final distance is
`DIST_INFINITY`. -/
theorem bfs_serial_overflow_chain_cex :
    ReachableB (chainB 2147483647) 0 2147483646 ∧
    (serialAlgo (chainB 2147483647) 0).map (fun ds => ds.getD 2147483646 0)
      = some DIST_INFINITY := by
  constructor
  · exact ⟨2147483646, chain_path 2147483647 2147483646 (by omega)⟩
  · have hn47 : (chainB 2147483647).n = 2147483647 := rfl
    have hrun : serialAlgoLoop (chainB 2147483647)
        ((2147483647 + 1) * (2147483647 + 1))
        (initB (chainB 2147483647) 0) [⟨0, 1⟩]
        = some (chainDist 2147483646) := by
      rw [initB_chain]
      have hmul : 2147483647 + 1 ≤ (2147483647 + 1) * (2147483647 + 1) :=
        Nat.le_mul_of_pos_left _ (Nat.succ_pos _)
      have h := chain_serial_run 2147483647 (by omega) 2147483646 0
        ((2147483647 + 1) * (2147483647 + 1)) (by omega) (by omega)
      rw [show (2147483647 - 1 : Nat) = 2147483646 from rfl] at h
      exact h
    unfold serialAlgo
    rw [hn47]
    rw [hrun]
    show some ((((List.range 2147483647).map
        (chainDist 2147483646)).getD 2147483646 0)) = some DIST_INFINITY
    rw [range_map_getD _ _ _ (by omega)]
    have hval : chainDist 2147483646 2147483646 = DIST_INFINITY := by decide
    rw [hval]

/-! ### Claim C7, counterexample -/

theorem chainBackB_adj (k : Nat) (h1 : k + 1 < 2147483650) (h2 : k ≠ 2147483649) :
    chainBackB.adj k = [k + 1] := by
  simp [chainBackB, h1, h2]

theorem chainBackB_adj_top : chainBackB.adj 2147483649 = [2147483646] := by
  decide

theorem chainBackB_adj_x : chainBackB.adj 2147483646 = [2147483647] := by
  decide

theorem chainBack_step (k f : Nat) (h1 : k + 1 < 2147483650) (h2 : k ≠ 2147483649) :
    serialAlgoLoop chainBackB (f + 1) (chainDist k) [⟨k, k + 1⟩]
      = serialAlgoLoop chainBackB f (chainDist (k + 1)) [⟨k + 1, k + 2⟩] := by
  show serialAlgoLoop chainBackB f
      (serialProcessEdges (k + 1) (chainDist k) (chainBackB.adj k)).1
      ([] ++ (serialProcessEdges (k + 1) (chainDist k) (chainBackB.adj k)).2) = _
  rw [chainBackB_adj k h1 h2]
  have hproc : serialProcessEdges (k + 1) (chainDist k) [k + 1]
      = (chainDist (k + 1), [⟨k + 1, k + 2⟩]) := by
    show (if chainDist k (k + 1) = DIST_INFINITY then
        ((serialProcessEdges (k + 1) (updFn (chainDist k) (k + 1) (k + 1)) []).1,
          (⟨k + 1, (k + 1 + 1) % M32⟩ : Req) ::
            (serialProcessEdges (k + 1) (updFn (chainDist k) (k + 1) (k + 1)) []).2)
      else serialProcessEdges (k + 1) (chainDist k) []) = _
    rw [if_pos (chainDist_infty k (k + 1) (by omega))]
    show ((updFn (chainDist k) (k + 1) (k + 1), (⟨k + 1, (k + 1 + 1) % M32⟩ : Req) :: [])
        : (Nat → Nat) × List Req) = _
    rw [chainDist_upd]
    have hmod : (k + 1 + 1) % M32 = k + 2 := Nat.mod_eq_of_lt (by unfold M32; omega)
    rw [hmod]
  rw [hproc]
  rfl

theorem chainBack_last_steps (f : Nat) :
    serialAlgoLoop chainBackB (f + 2) (chainDist 2147483649) [⟨2147483649, 2147483650⟩]
      = some chainBackFinal := by
  show serialAlgoLoop chainBackB (f + 1)
      (serialProcessEdges 2147483650 (chainDist 2147483649) (chainBackB.adj 2147483649)).1
      ([] ++ (serialProcessEdges 2147483650 (chainDist 2147483649)
          (chainBackB.adj 2147483649)).2) = _
  rw [chainBackB_adj_top]
  have hp1 : serialProcessEdges 2147483650 (chainDist 2147483649) [2147483646]
      = (chainBackFinal, [⟨2147483646, 2147483651⟩]) := by
    show (if chainDist 2147483649 2147483646 = DIST_INFINITY then
        ((serialProcessEdges 2147483650
            (updFn (chainDist 2147483649) 2147483646 2147483650) []).1,
          (⟨2147483646, (2147483650 + 1) % M32⟩ : Req) ::
            (serialProcessEdges 2147483650
              (updFn (chainDist 2147483649) 2147483646 2147483650) []).2)
      else serialProcessEdges 2147483650 (chainDist 2147483649) []) = _
    rw [if_pos (by decide : chainDist 2147483649 2147483646 = DIST_INFINITY)]
    show ((updFn (chainDist 2147483649) 2147483646 2147483650,
        (⟨2147483646, (2147483650 + 1) % M32⟩ : Req) :: []) : (Nat → Nat) × List Req) = _
    rw [show ((2147483650 + 1) % M32 : Nat) = 2147483651 from by decide]
    rfl
  rw [hp1]
  show serialAlgoLoop chainBackB f
      (serialProcessEdges 2147483651 chainBackFinal (chainBackB.adj 2147483646)).1
      ([] ++ (serialProcessEdges 2147483651 chainBackFinal
          (chainBackB.adj 2147483646)).2) = _
  rw [chainBackB_adj_x]
  have hp2 : serialProcessEdges 2147483651 chainBackFinal [2147483647]
      = (chainBackFinal, []) := by
    show (if chainBackFinal 2147483647 = DIST_INFINITY then
        ((serialProcessEdges 2147483651
            (updFn chainBackFinal 2147483647 2147483651) []).1,
          (⟨2147483647, (2147483651 + 1) % M32⟩ : Req) ::
            (serialProcessEdges 2147483651
              (updFn chainBackFinal 2147483647 2147483651) []).2)
      else serialProcessEdges 2147483651 chainBackFinal []) = _
    rw [if_neg (by decide : ¬ chainBackFinal 2147483647 = DIST_INFINITY)]
    rfl
  rw [hp2]
  show serialAlgoLoop chainBackB f chainBackFinal [] = _
  rw [serialAlgoLoop_nil]

theorem chainBack_run : ∀ (m k f : Nat), k + m = 2147483649 → m + 2 ≤ f →
    serialAlgoLoop chainBackB f (chainDist k) [⟨k, k + 1⟩] = some chainBackFinal := by
  intro m
  induction m with
  | zero =>
    intro k f hkm hf
    have hk : k = 2147483649 := by omega
    subst hk
    obtain ⟨f2, rfl⟩ : ∃ f2, f = f2 + 2 := ⟨f - 2, by omega⟩
    exact chainBack_last_steps f2
  | succ m ih =>
    intro k f hkm hf
    obtain ⟨f2, rfl⟩ : ∃ f2, f = f2 + 1 := ⟨f - 1, by omega⟩
    rw [chainBack_step k f2 (by omega) (by omega)]
    exact ih (k + 1) f2 (by omega) (by omega)

theorem chainBack_path : ∀ k, k ≤ 2147483646 → PathN chainBackB 0 k k := by
  intro k
  induction k with
  | zero => intro _; exact PathN.refl
  | succ k ih =>
    intro hk
    refine PathN.step (ih (by omega)) ?_
    rw [chainBackB_adj k (by omega) (by omega)]
    exact List.mem_singleton.mpr rfl

theorem chainBack_path_lb : ∀ (v k : Nat), PathN chainBackB 0 v k → v ≤ k := by
  intro v k h
  induction h with
  | refl => exact Nat.le_refl 0
  | @step u w k2 hp hedge ih =>
    simp only [chainBackB] at hedge
    by_cases h1 : u = 2147483649
    · rw [if_pos h1] at hedge
      rw [List.mem_singleton] at hedge
      omega
    · rw [if_neg h1] at hedge
      by_cases h2 : u + 1 < 2147483650
      · rw [if_pos h2] at hedge
        rw [List.mem_singleton] at hedge
        omega
      · rw [if_neg h2] at hedge
        exact absurd hedge (List.not_mem_nil _)

theorem initB_src_zero (g : BGraph) : initB g 0 = chainDist 0 := by
  funext j
  unfold initB chainDist
  by_cases hj : j = 0
  · rw [if_pos hj, if_pos (by omega)]
    omega
  · rw [if_neg hj, if_neg (by omega)]

/-- C7 fails as stated: on `chainBackB` (2147483650 nodes), node 2147483646
is reachable from source 0 and its BFS level is exactly `DIST_INFINITY`;
`serialAlgo` terminates and leaves that node at 2147483650 — neither its BFS
level nor `DIST_INFINITY`.  Its datum is first written `DIST_INFINITY` itself
(its level), so the node is re-discovered through the back edge from the
deeper node 2147483649 and overwritten with 2147483650. -/
theorem bfs_level_overflow_rediscovery_cex :
    ReachableB chainBackB 0 2147483646 ∧
    MinLvl chainBackB 0 2147483646 2147483646 ∧
    (serialAlgo chainBackB 0).map (fun ds => ds.getD 2147483646 0)
      = some 2147483650 ∧
    (2147483650 : Nat) ≠ 2147483646 ∧ (2147483650 : Nat) ≠ DIST_INFINITY := by
  have hpath : PathN chainBackB 0 2147483646 2147483646 :=
    chainBack_path 2147483646 (le_refl _)
  refine ⟨⟨2147483646, hpath⟩, ⟨hpath, ?_⟩, ?_, by decide, by decide⟩
  · intro k hk
    exact chainBack_path_lb 2147483646 k hk
  · have hn : chainBackB.n = 2147483650 := rfl
    have hrun : serialAlgoLoop chainBackB ((2147483650 + 1) * (2147483650 + 1))
        (initB chainBackB 0) [⟨0, 1⟩] = some chainBackFinal := by
      rw [initB_src_zero]
      exact chainBack_run 2147483649 0 ((2147483650 + 1) * (2147483650 + 1))
        (by omega) (by omega)
    unfold serialAlgo
    rw [hn]
    rw [hrun]
    show some (((List.range 2147483650).map chainBackFinal).getD 2147483646 0)
      = some 2147483650
    rw [range_map_getD _ _ _ (by omega)]
    have hval : chainBackFinal 2147483646 = 2147483650 := by decide
    rw [hval]
